import Mathlib

/-!
# Verification of the `metaser` struct ⇄ Kubernetes-metadata serializer

This file gives a shallow embedding, in Lean 4, of the Go library `metaser`
(tag-driven serialization of struct fields into a Kubernetes object's
name / namespace / labels / annotations) and proves properties of it.

Modelling conventions, chosen once and used throughout:

* Go `string` values are modelled as `List Char` (named `Str` below), so that
  splitting and joining admit straightforward inductive proofs.
* Go `map[string]string` is modelled as an association list `SMap` in which
  Go's unspecified iteration order is fixed to list order.
* The standard library calls `strconv.ParseBool`, `strconv.ParseInt`,
  `strconv.ParseUint`, `strconv.FormatInt`, `strconv.FormatUint`,
  `strings.Split`, `strings.Join`, `strings.Fields`, `strings.TrimPrefix`,
  `strings.TrimSuffix` are modelled by their documented semantics
  (base-10, exact-bit-width range checks, Go's `Split` of the empty string
  yielding `[""]`, and so on).
* Reflection-typed values are modelled by a universe `Ty` of type shapes and
  `Val` of values; floating point fields are outside this universe.
* A nil Go map / nil slice is identified with the empty one; partial in-place
  mutation of composite targets on *failed* decodes is not modelled (a failed
  conversion leaves the modelled slot unchanged, which agrees with Go for all
  scalar fields since `SetInt`/`SetBool`/… run only on parse success).
-/

set_option maxHeartbeats 1600000

/-! ## Go strings as lists of characters -/

/-- Go `string`, modelled as a list of characters. -/
abbrev Str := List Char

/-- Convert a Lean string literal into the `Str` model. -/
def str (s : String) : Str := s.toList

/-- `strings.Split(s, sep)` for a single-character separator.  As in Go,
`splitChar sep []` is `[[]]` (splitting the empty string yields one empty
part), and the result always has one more part than there are separators. -/
def splitChar (sep : Char) : Str → List Str
  | [] => [[]]
  | c :: rest =>
    match splitChar sep rest with
    | [] => [[c]]
    | s :: ss => if c = sep then [] :: s :: ss else (c :: s) :: ss

/-- `strings.Join(parts, sep)` for a single-character separator. -/
def joinChar (sep : Char) : List Str → Str
  | [] => []
  | [s] => s
  | s :: rest => s ++ sep :: joinChar sep rest

theorem splitChar_ne_nil (sep : Char) (s : Str) : splitChar sep s ≠ [] := by
  cases s with
  | nil => simp [splitChar]
  | cons c rest =>
    simp only [splitChar]
    cases h : splitChar sep rest with
    | nil => simp
    | cons a as => by_cases hc : c = sep <;> simp [hc]

/-- Splitting after prepending a separator-free part. -/
theorem splitChar_append_part (sep : Char) (p : Str) (hp : sep ∉ p) (s : Str) :
    splitChar sep (p ++ sep :: s) = p :: splitChar sep s := by
  induction p with
  | nil =>
    simp only [List.nil_append, splitChar]
    cases h : splitChar sep s with
    | nil => exact absurd h (splitChar_ne_nil sep s)
    | cons a as => simp
  | cons c cs ih =>
    have hc : c ≠ sep := fun h => hp (by simp [h])
    have hcs : sep ∉ cs := fun h => hp (by simp [h])
    simp only [List.cons_append, splitChar]
    rw [List.append_eq, ih hcs]
    cases h : splitChar sep s with
    | nil => exact absurd h (splitChar_ne_nil sep s)
    | cons a as => simp [hc]

/-- A part without the separator splits into itself alone. -/
theorem splitChar_no_sep (sep : Char) (p : Str) (hp : sep ∉ p) :
    splitChar sep p = [p] := by
  induction p with
  | nil => simp [splitChar]
  | cons c cs ih =>
    have hc : c ≠ sep := fun h => hp (by simp [h])
    have hcs : sep ∉ cs := fun h => hp (by simp [h])
    simp [splitChar, ih hcs, hc]

/-- Round trip of `Join` then `Split` on a nonempty list of separator-free
parts. -/
theorem splitChar_joinChar (sep : Char) (parts : List Str)
    (hne : parts ≠ []) (hfree : ∀ p ∈ parts, sep ∉ p) :
    splitChar sep (joinChar sep parts) = parts := by
  induction parts with
  | nil => exact absurd rfl hne
  | cons p rest ih =>
    cases rest with
    | nil => exact splitChar_no_sep sep p (hfree p (by simp))
    | cons q qs =>
      have h1 : sep ∉ p := hfree p (by simp)
      have hr : ∀ x ∈ q :: qs, sep ∉ x := fun x hx => hfree x (by simp [hx])
      simp only [joinChar]
      rw [splitChar_append_part sep p h1, ih (by simp) hr]

/-! ## Decimal formatting and parsing (`strconv`, base 10) -/

/-- The decimal digit character for `d < 10`. -/
def digitChar (d : Nat) : Char := Char.ofNat (48 + d)

/-- Decimal digits of a natural number, most significant first
(`strconv.FormatUint(n, 10)`). -/
def formatNat (n : Nat) : Str :=
  if h : n < 10 then [digitChar n]
  else formatNat (n / 10) ++ [digitChar (n % 10)]
  decreasing_by exact Nat.div_lt_self (by omega) (by omega)

/-- `strconv.FormatInt(n, 10)`. -/
def formatInt (n : Int) : Str :=
  if n < 0 then '-' :: formatNat n.natAbs else formatNat n.toNat

/-- Numeric value of a decimal digit character, if it is one. -/
def digitVal (c : Char) : Option Nat :=
  if 48 ≤ c.toNat ∧ c.toNat ≤ 57 then some (c.toNat - 48) else none

/-- Left-to-right accumulation of decimal digits. -/
def parseDigits (acc : Nat) : Str → Option Nat
  | [] => some acc
  | c :: cs =>
    match digitVal c with
    | some d => parseDigits (10 * acc + d) cs
    | none => none

/-- Parse an unsigned decimal numeral: nonempty, digits only.  This is the
digit-consuming core of `strconv.ParseUint(s, 10, ·)` (no sign, no
underscores since the base is fixed). -/
def parseNat : Str → Option Nat
  | [] => none
  | s => parseDigits 0 s

/-- `strconv.ParseUint(s, 10, bits)`: decimal digits only, and any value not
fitting in `bits` bits is a range error (`none`), never truncated. -/
def parseUint (s : Str) (bits : Nat) : Option Nat :=
  match parseNat s with
  | some n => if n < 2 ^ bits then some n else none
  | none => none

/-- Digits-and-range part of `strconv.ParseInt`. -/
def parseIntCore (neg : Bool) (digits : Str) (bits : Nat) : Option Int :=
  match parseNat digits with
  | none => none
  | some m =>
    let v : Int := if neg then -(m : Int) else (m : Int)
    if -(2 ^ (bits - 1) : Int) ≤ v ∧ v < (2 ^ (bits - 1) : Int) then some v else none

/-- `strconv.ParseInt(s, 10, bits)`: an optional single leading sign, then
decimal digits; values outside `[-2^(bits-1), 2^(bits-1))` are range errors
(`none`), never truncated. -/
def parseInt (s : Str) (bits : Nat) : Option Int :=
  match s with
  | [] => none
  | c :: rest =>
    if c = '-' then parseIntCore true rest bits
    else if c = '+' then parseIntCore false rest bits
    else parseIntCore false s bits

/-- `strconv.ParseBool`: Go's exact literal set.  The multi-value `case`
arms of the Go `switch` become disjunctions. -/
def parseBool (s : Str) : Option Bool :=
  if s = str "1" ∨ s = str "t" ∨ s = str "T" ∨ s = str "TRUE" ∨
      s = str "true" ∨ s = str "True" then some true
  else if s = str "0" ∨ s = str "f" ∨ s = str "F" ∨ s = str "FALSE" ∨
      s = str "false" ∨ s = str "False" then some false
  else none

/-- `strconv.FormatBool`. -/
def formatBool (b : Bool) : Str := if b then str "true" else str "false"

theorem digitVal_digitChar {d : Nat} (h : d < 10) : digitVal (digitChar d) = some d := by
  interval_cases d <;> decide

theorem digitChar_ne_dash {d : Nat} (h : d < 10) : digitChar d ≠ '-' := by
  interval_cases d <;> decide

theorem digitChar_ne_plus {d : Nat} (h : d < 10) : digitChar d ≠ '+' := by
  interval_cases d <;> decide

theorem parseDigits_append (acc : Nat) (xs ys : Str) :
    parseDigits acc (xs ++ ys) =
      match parseDigits acc xs with
      | some m => parseDigits m ys
      | none => none := by
  induction xs generalizing acc with
  | nil => simp [parseDigits]
  | cons c cs ih =>
    simp only [List.cons_append, parseDigits]
    cases digitVal c with
    | none => rfl
    | some d => exact ih (10 * acc + d)

theorem formatNat_ne_nil (n : Nat) : formatNat n ≠ [] := by
  rw [formatNat]
  by_cases h : n < 10
  · rw [dif_pos h]; simp
  · rw [dif_neg h]; simp [formatNat_ne_nil (n / 10)]
  decreasing_by exact Nat.div_lt_self (by omega) (by omega)

theorem parseDigits_formatNat (n : Nat) : parseDigits 0 (formatNat n) = some n := by
  induction n using Nat.strong_induction_on with
  | _ n ih =>
    rw [formatNat]
    by_cases h : n < 10
    · rw [dif_pos h]
      simp [parseDigits, digitVal_digitChar h]
    · rw [dif_neg h, parseDigits_append, ih (n / 10) (Nat.div_lt_self (by omega) (by omega))]
      have h10 : n % 10 < 10 := Nat.mod_lt _ (by omega)
      simp [parseDigits, digitVal_digitChar h10, Nat.div_add_mod]

theorem parseNat_formatNat (n : Nat) : parseNat (formatNat n) = some n := by
  have h := formatNat_ne_nil n
  cases hfn : formatNat n with
  | nil => exact absurd hfn h
  | cons c cs =>
    have hpd := parseDigits_formatNat n
    rw [hfn] at hpd
    rw [parseNat.eq_def]
    exact hpd

/-- The first character of a formatted natural is a decimal digit. -/
theorem formatNat_head_digit (n : Nat) :
    ∃ d cs, d < 10 ∧ formatNat n = digitChar d :: cs := by
  induction n using Nat.strong_induction_on with
  | _ n ih =>
    rw [formatNat]
    by_cases h : n < 10
    · rw [dif_pos h]
      exact ⟨n, [], h, rfl⟩
    · rw [dif_neg h]
      obtain ⟨d, cs, hd, hds⟩ := ih (n / 10) (Nat.div_lt_self (by omega) (by omega))
      exact ⟨d, cs ++ [digitChar (n % 10)], hd, by simp [hds]⟩

theorem parseIntCore_formatNat (neg : Bool) (m : Nat) (bits : Nat) (v : Int)
    (hv : v = if neg then -(m : Int) else (m : Int))
    (hlo : -(2 ^ (bits - 1) : Int) ≤ v) (hhi : v < (2 ^ (bits - 1) : Int)) :
    parseIntCore neg (formatNat m) bits = some v := by
  subst hv
  rw [parseIntCore, parseNat_formatNat]
  exact if_pos ⟨hlo, hhi⟩

/-- Decimal round trip for signed integers within the bit width. -/
theorem parseInt_formatInt (n : Int) (bits : Nat)
    (hlo : -(2 ^ (bits - 1) : Int) ≤ n) (hhi : n < (2 ^ (bits - 1) : Int)) :
    parseInt (formatInt n) bits = some n := by
  by_cases hneg : n < 0
  · have hfi : formatInt n = '-' :: formatNat n.natAbs := by simp [formatInt, hneg]
    have hv : n = if true then -(n.natAbs : Int) else (n.natAbs : Int) := by
      simp only [if_true]; omega
    rw [hfi, parseInt, if_pos rfl, parseIntCore_formatNat true n.natAbs bits n hv hlo hhi]
  · push_neg at hneg
    have hfi : formatInt n = formatNat n.toNat := by
      simp [formatInt, not_lt.mpr hneg]
    obtain ⟨d, cs, hd, hds⟩ := formatNat_head_digit n.toNat
    have hdash := digitChar_ne_dash hd
    have hplus := digitChar_ne_plus hd
    have hv : n = if false then -(n.toNat : Int) else (n.toNat : Int) := by
      split
      · rename_i hcontra; exact absurd hcontra (by decide)
      · omega
    rw [hfi, hds, parseInt, if_neg hdash, if_neg hplus, ← hds,
      parseIntCore_formatNat false n.toNat bits n hv hlo hhi]

theorem parseBool_formatBool (b : Bool) : parseBool (formatBool b) = some b := by
  cases b <;> decide

/-! ## The reflected value universe

`Ty` models the shapes of Go types the conversion layer dispatches on
(`reflect.Kind`), and `Val` the corresponding values.  Floating point kinds
are outside the model.  `metaser.Option[T]` is the explicit-optionality
wrapper (a struct with fields `value`, `isSet`); maps are `map[string]V`
association lists in which Go's unspecified iteration order is fixed to
list order.  Go `int`/`uint` have width `bits.UintSize`, modelled as 64. -/

/-- `math/bits.UintSize` on the (64-bit) platforms the library targets. -/
def wordSize : Nat := 64

inductive Ty where
  | tbool : Ty
  | tint : Nat → Ty
  | tuint : Nat → Ty
  | tstr : Ty
  | tarr : Nat → Ty → Ty
  | tslice : Ty → Ty
  | tmap : Ty → Ty
  | tptr : Ty → Ty
  | topt : Ty → Ty
deriving DecidableEq, Repr

inductive Val where
  | vbool : Bool → Val
  | vint : Int → Val
  | vuint : Nat → Val
  | vstr : Str → Val
  | varr : List Val → Val
  | vslice : List Val → Val
  | vmap : List (Str × Val) → Val
  | vptr : Option Val → Val
  | vopt : Bool → Val → Val
deriving Repr

/-- The zero `reflect.Value` of each type shape (`reflect.New(t).Elem()`).
A nil map/slice/pointer is the zero value; the zero `Option` has `isSet`
false. -/
def zeroVal : Ty → Val
  | .tbool => .vbool false
  | .tint _ => .vint 0
  | .tuint _ => .vuint 0
  | .tstr => .vstr []
  | .tarr n t => .varr (List.replicate n (zeroVal t))
  | .tslice _ => .vslice []
  | .tmap _ => .vmap []
  | .tptr _ => .vptr none
  | .topt t => .vopt false (zeroVal t)

mutual

/-- `reflect.Value.IsZero`: nil pointers/slices/maps, all-zero arrays and
structs, zero scalars. -/
def isZero : Val → Bool
  | .vbool b => !b
  | .vint n => n = 0
  | .vuint n => n = 0
  | .vstr s => s.isEmpty
  | .varr xs => isZeroList xs
  | .vslice xs => xs.isEmpty
  | .vmap es => es.isEmpty
  | .vptr p => p.isNone
  | .vopt s v => !s && isZero v

def isZeroList : List Val → Bool
  | [] => true
  | x :: xs => isZero x && isZeroList xs

end

mutual

/-- `reflect.DeepEqual`, restricted to the modelled universe.  (On the
association-list model of maps this is order-sensitive, a sound model
whenever map entries are kept in a canonical order.) -/
def valEq : Val → Val → Bool
  | .vbool a, .vbool b => a = b
  | .vint a, .vint b => a = b
  | .vuint a, .vuint b => a = b
  | .vstr a, .vstr b => a = b
  | .varr a, .varr b => valListEq a b
  | .vslice a, .vslice b => valListEq a b
  | .vmap a, .vmap b => valEntriesEq a b
  | .vptr none, .vptr none => true
  | .vptr (some a), .vptr (some b) => valEq a b
  | .vopt sa a, .vopt sb b => sa = sb && valEq a b
  | _, _ => false

def valListEq : List Val → List Val → Bool
  | [], [] => true
  | a :: as', b :: bs => valEq a b && valListEq as' bs
  | _, _ => false

def valEntriesEq : List (Str × Val) → List (Str × Val) → Bool
  | [], [] => true
  | (ka, va) :: as', (kb, vb) :: bs => ka = kb && valEq va vb && valEntriesEq as' bs
  | _, _ => false

end

mutual

/-- Well-typedness of a value at a type shape, including that machine
integers fit their bit width. -/
def hasTy : Ty → Val → Bool
  | .tbool, .vbool _ => true
  | .tint w, .vint n => decide (-(2 ^ (w - 1) : Int) ≤ n ∧ n < (2 ^ (w - 1) : Int))
  | .tuint w, .vuint n => decide (n < 2 ^ w)
  | .tstr, .vstr _ => true
  | .tarr n t, .varr xs => xs.length = n && hasTyList t xs
  | .tslice t, .vslice xs => hasTyList t xs
  | .tmap t, .vmap es => hasTyEntries t es
  | .tptr _, .vptr none => true
  | .tptr t, .vptr (some w) => hasTy t w
  | .topt t, .vopt _ w => hasTy t w
  | _, _ => false

def hasTyList : Ty → List Val → Bool
  | _, [] => true
  | t, x :: xs => hasTy t x && hasTyList t xs

def hasTyEntries : Ty → List (Str × Val) → Bool
  | _, [] => true
  | t, (_, v) :: es => hasTy t v && hasTyEntries t es

end

/-! ## Go maps as association lists -/

/-- Go map read `m[k]` (with the `ok` bit as `Option`). -/
def lookupA {α : Type} : List (Str × α) → Str → Option α
  | [], _ => none
  | (k', v') :: rest, k => if k' = k then some v' else lookupA rest k

/-- Go map write `m[k] = v`: replace the binding if present, else add it. -/
def setA {α : Type} : List (Str × α) → Str → α → List (Str × α)
  | [], k, v => [(k, v)]
  | (k', v') :: rest, k, v =>
    if k' = k then (k, v) :: rest else (k', v') :: setA rest k v

/-- Go `delete(m, k)`. -/
def eraseA {α : Type} (m : List (Str × α)) (k : Str) : List (Str × α) :=
  m.filter fun kv => kv.1 ≠ k

theorem lookupA_eraseA {α : Type} (m : List (Str × α)) (k : Str) :
    lookupA (eraseA m k) k = none := by
  induction m with
  | nil => rfl
  | cons kv rest ih =>
    by_cases h : kv.1 = k
    · simpa [eraseA, h] using ih
    · obtain ⟨k', v'⟩ := kv
      simp only [Prod.fst] at h
      simp [eraseA, lookupA, h] at ih ⊢
      simpa [List.filter] using ih

/-! ## Conversion layer, encode direction (`encoder` of `part_002`)

`encodeUndefined` is Go's default (type-driven) encoding: the
`TextMarshaler` escape hatch is outside the modelled universe, then the
`Option` wrapper, then shape dispatch in `encodePrimitive`.  A `vopt`
reaching `encodePrimitive` is a plain struct kind there and yields Go's
"unsupported type" error, and a nil pointer encodes as the empty string
(`assignPointer` returns with `out` untouched). -/

mutual

def encodeUndefined : Val → Except Unit Str
  | .vopt isSet w => encodeOption isSet w
  | v => encodePrimitive v

def encodeOption (isSet : Bool) (w : Val) : Except Unit Str :=
  if isSet then encodeUndefined w else .ok []

def encodePrimitive : Val → Except Unit Str
  | .vbool b => .ok (formatBool b)
  | .vint n => .ok (formatInt n)
  | .vuint n => .ok (formatNat n)
  | .vstr s => .ok s
  | .varr xs => assignArray xs
  | .vslice xs => assignArray xs
  | .vmap es => assignMap es
  | .vptr none => .ok []
  | .vptr (some w) => encodeUndefined w
  | .vopt _ _ => .error ()

/-- `assignArray` (and `assignSlice`, which delegates to it): encode every
element with `encodeUndefined` and join with the item separator. -/
def assignArray (xs : List Val) : Except Unit Str :=
  (encodeElems xs).map (joinChar ',')

def encodeElems : List Val → Except Unit (List Str)
  | [] => .ok []
  | x :: xs =>
    match encodeUndefined x with
    | .ok s =>
      match encodeElems xs with
      | .ok rest => .ok (s :: rest)
      | .error e => .error e
    | .error e => .error e

/-- `assignMap`: `key:value` items joined with the item separator; string
map keys encode as themselves. -/
def assignMap (es : List (Str × Val)) : Except Unit Str :=
  (encodeEntries es).map (joinChar ',')

def encodeEntries : List (Str × Val) → Except Unit (List Str)
  | [] => .ok []
  | (k, v) :: es =>
    match encodeUndefined v with
    | .ok s =>
      match encodeEntries es with
      | .ok rest => .ok ((k ++ ':' :: s) :: rest)
      | .error e => .error e
    | .error e => .error e

end

/-! ## Conversion layer, decode direction (first `decoder.go`) -/

/-- `assignToBool`: `strconv.ParseBool`, with `SetBool` running only on
success (an error leaves the slot untouched, which the drivers model by
keeping the previous value). -/
def assignToBool (s : Str) : Except Unit Val :=
  match parseBool s with
  | some b => .ok (.vbool b)
  | none => .error ()

/-- `assignToInt`: base-10 `strconv.ParseInt` at the field's exact bit
width; `SetInt` runs only on success. -/
def assignToInt (s : Str) (bits : Nat) : Except Unit Val :=
  match parseInt s bits with
  | some n => .ok (.vint n)
  | none => .error ()

/-- `assignToUInt`: base-10 `strconv.ParseUint` at the field's exact bit
width; `SetUint` runs only on success. -/
def assignToUInt (s : Str) (bits : Nat) : Except Unit Val :=
  match parseUint s bits with
  | some n => .ok (.vuint n)
  | none => .error ()

mutual

/-- `decodeUndefined`: the `TextUnmarshaler` escape hatch is outside the
modelled universe; then the `Option` wrapper; then shape dispatch. -/
def decodeUndefined (t : Ty) (cur : Val) (s : Str) : Except Unit Val :=
  match t with
  | .topt te =>
    match cur with
    | .vopt isSet0 w0 => decodeOption te isSet0 w0 s
    | _ => decodePrimitive (.topt te) cur s
  | .tbool => decodePrimitive .tbool cur s
  | .tint w => decodePrimitive (.tint w) cur s
  | .tuint w => decodePrimitive (.tuint w) cur s
  | .tstr => decodePrimitive .tstr cur s
  | .tarr n te => decodePrimitive (.tarr n te) cur s
  | .tslice te => decodePrimitive (.tslice te) cur s
  | .tmap te => decodePrimitive (.tmap te) cur s
  | .tptr te => decodePrimitive (.tptr te) cur s
termination_by (sizeOf t, 1, 0)

/-- `decodeOption`: decode into the inner `value` field and set `isSet`
only on success. -/
def decodeOption (te : Ty) (isSet0 : Bool) (w0 : Val) (s : Str) : Except Unit Val :=
  match decodeUndefined te w0 s with
  | .ok w => .ok (.vopt true w)
  | .error e => .error e
termination_by (sizeOf te, 2, 0)

def decodePrimitive (t : Ty) (cur : Val) (s : Str) : Except Unit Val :=
  match t, cur with
  | .tbool, _ => assignToBool s
  | .tint w, _ => assignToInt s w
  | .tuint w, _ => assignToUInt s w
  | .tstr, _ => .ok (.vstr s)
  | .tarr n te, .varr xs => assignToArray te n xs s
  | .tslice te, _ => assignToSlice te s
  | .tmap te, _ => assignToMap te s
  | .tptr te, cur => assignToPointer te cur s
  | _, _ => .error ()
termination_by (sizeOf t, 0, 0)

/-- `realValue` selection in `assignToPointer`: the existing pointee when
the pointer is non-nil, else a freshly allocated zero pointee
(`reflect.New(out.Type().Elem())`). -/
def pointeeOf (te : Ty) (cur : Val) : Val :=
  match cur with
  | .vptr (some w) => w
  | _ => zeroVal te

/-- `assignToArray`: the split element count must equal the array length;
elements are decoded in place. -/
def assignToArray (te : Ty) (n : Nat) (xs : List Val) (s : Str) : Except Unit Val :=
  let values := splitChar ',' s
  if n ≠ values.length then .error ()
  else
    match decodeElems te xs values with
    | .ok ys => .ok (.varr ys)
    | .error e => .error e
termination_by (sizeOf te, 3, 0)

/-- `assignToSlice`: a fresh slice of zero elements of the split length,
each decoded with `decodeUndefined`. -/
def assignToSlice (te : Ty) (s : Str) : Except Unit Val :=
  let values := splitChar ',' s
  match decodeElems te (values.map fun _ => zeroVal te) values with
  | .ok ys => .ok (.vslice ys)
  | .error e => .error e
termination_by (sizeOf te, 3, 0)

def decodeElems (te : Ty) (curs : List Val) (ss : List Str) : Except Unit (List Val) :=
  match curs, ss with
  | _, [] => .ok []
  | [], _ :: _ => .error ()
  | cv :: cvs, s1 :: ss1 =>
    match decodeUndefined te cv s1 with
    | .ok y =>
      match decodeElems te cvs ss1 with
      | .ok ys => .ok (y :: ys)
      | .error e => .error e
    | .error e => .error e
termination_by (sizeOf te, 2, sizeOf ss)

/-- `assignToMap`: each comma-separated item must split into exactly two
colon-separated parts; values decode into fresh zero slots and are inserted
into a fresh map in item order (`SetMapIndex`, so a duplicate key
overwrites). -/
def assignToMap (te : Ty) (s : Str) : Except Unit Val :=
  let values := splitChar ',' s
  match decodeMapItems te [] values with
  | .ok es => .ok (.vmap es)
  | .error e => .error e
termination_by (sizeOf te, 3, 0)

def decodeMapItems (te : Ty) (mp : List (Str × Val)) (items : List Str) :
    Except Unit (List (Str × Val)) :=
  match items with
  | [] => .ok mp
  | item :: rest =>
    match splitChar ':' item with
    | [k, vs] =>
      match decodeUndefined te (zeroVal te) vs with
      | .ok v => decodeMapItems te (setA mp k v) rest
      | .error e => .error e
    | _ => .error ()
termination_by (sizeOf te, 2, sizeOf items)

/-- `assignToPointer`: allocate a zero pointee when the pointer is nil,
then decode the pointee with `decodePrimitive` (note: not
`decodeUndefined`). -/
def assignToPointer (te : Ty) (cur : Val) (s : Str) : Except Unit Val :=
  match decodePrimitive te (pointeeOf te cur) s with
  | .ok w => .ok (.vptr (some w))
  | .error e => .error e
termination_by (sizeOf te, 3, 0)

end

/-! ## Tag grammar (`parseTag`)

The raw struct-tag string is whitespace-split (`strings.Fields`); the first
field with prefix `k8s` is stripped of `k8s:"` and a trailing `"`; an empty
declaration means the field is unmanaged (`(nil, nil)`). -/

/-- Prefix test (`strings.HasPrefix`). -/
def startsWith : Str → Str → Bool
  | [], _ => true
  | _ :: _, [] => false
  | p :: ps, c :: cs => p = c && startsWith ps cs

/-- Suffix test (`strings.HasSuffix`). -/
def endsWith (suf s : Str) : Bool := startsWith suf.reverse s.reverse

/-- `strings.TrimPrefix`. -/
def trimPre (pre s : Str) : Str := if startsWith pre s then s.drop pre.length else s

/-- `strings.TrimSuffix`. -/
def trimSuf (suf s : Str) : Str := if endsWith suf s then s.take (s.length - suf.length) else s

/-- Split on a character predicate (used with `Char.isWhitespace` to model
`strings.Fields`, which drops empty fields). -/
def splitPred (p : Char → Bool) : Str → List Str
  | [] => [[]]
  | c :: rest =>
    match splitPred p rest with
    | [] => [[c]]
    | s :: ss => if p c then [] :: s :: ss else (c :: s) :: ss

/-- `strings.Fields`. -/
def fieldsWS (s : Str) : List Str :=
  (splitPred (fun c => c.isWhitespace) s).filter (fun p => p ≠ [])

/-- The `k8s` declaration of a raw tag: first whitespace-field with prefix
`k8s`, trimmed of `k8s:"` and a trailing quote; `[]` when absent. -/
def findK8sTag : List Str → Str
  | [] => []
  | f :: rest =>
    if startsWith (str "k8s") f
    then trimSuf (str "\"") (trimPre (str "k8s:\"") f)
    else findK8sTag rest

/-- `source` (Go `const` block): `name`, `namespace`, `annotation`, `label`,
with 0 as `undefined`.  (`nspace` renders Go's `namespace`, a Lean keyword,
and `annot` Go's `annotation`.) -/
inductive Source where
  | undef
  | name
  | nspace
  | annot
  | label
deriving DecidableEq, Repr

/-- Go's `encoder` enumeration: `undefined`, `jsonEnc`, `custom`. -/
inductive Enc where
  | undef
  | jsonEnc
  | custom
deriving DecidableEq, Repr

/-- Go's `dir` enumeration: `in`, `out`, `inout` (Lean keywords, hence the
`Dir` suffixes). -/
inductive Dir where
  | inDir
  | outDir
  | inoutDir
deriving DecidableEq, Repr

/-- `parsedTag`, with the same defaults `parseTag` installs before applying
any token: source undefined, encoding undefined (default), direction inout,
empty key, all flags false, no aliases. -/
structure ParsedTag where
  source : Source := .undef
  enc : Enc := .undef
  dir : Dir := .inoutDir
  value : Str := []
  inline : Bool := false
  omitempty : Bool := false
  immutable : Bool := false
  aliases : List Str := []
  setOnce : Bool := false
deriving DecidableEq, Repr

/-- The default descriptor (the literal initialisation in `parseTag`). -/
def defaultParsedTag : ParsedTag := {}

/-- Tag-syntax errors, each carrying the offending token text exactly as the
Go error message embeds it. -/
inductive TagErr where
  | unknownOption (tok : Str)
  | unknownKey (key : Str)
  | badEncoding (value : Str)
deriving DecidableEq, Repr

/-- `parseEncoding`. -/
def parseEncoding (v : Str) : Except TagErr Enc :=
  if v = str "json" then .ok .jsonEnc
  else if v = str "custom" then .ok .custom
  else if v = [] then .ok .undef
  else .error (.badEncoding v)

/-- One arm of `parseTag`'s token loop: bare keywords, then `key:value`
pairs; an unknown bare token or a token that does not split into exactly two
colon-separated parts is an error naming the token. -/
def applyToken (pt : ParsedTag) (f : Str) : Except TagErr ParsedTag :=
  if f = str "name" then .ok {pt with source := .name}
  else if f = str "namespace" then .ok {pt with source := .nspace}
  else if f = str "inline" then .ok {pt with inline := true}
  else if f = str "in" then .ok {pt with dir := .inDir}
  else if f = str "out" then .ok {pt with dir := .outDir}
  else if f = str "inout" then .ok {pt with dir := .inoutDir}
  else if f = str "omitempty" then .ok {pt with omitempty := true}
  else if f = str "immutable" then .ok {pt with immutable := true}
  else if f = str "setonce" then .ok {pt with setOnce := true}
  else
    match splitChar ':' f with
    | [k, v] =>
      if k = str "enc" then (parseEncoding v).map fun e => {pt with enc := e}
      else if k = str "annotation" then .ok {pt with source := .annot, value := v}
      else if k = str "label" then .ok {pt with source := .label, value := v}
      else if k = str "aliases" then .ok {pt with aliases := splitChar ';' v}
      else .error (.unknownKey k)
    | _ => .error (.unknownOption f)

/-- `parseTag`: `(nil, nil)` when no `k8s` declaration is present, else the
comma-separated tokens folded over the default descriptor. -/
def parseTag (rawTag : Str) : Except TagErr (Option ParsedTag) :=
  let k8sTag := findK8sTag (fieldsWS rawTag)
  if k8sTag = [] then .ok none
  else ((splitChar ',' k8sTag).foldlM applyToken defaultParsedTag).map some

/-! ## The metadata container and field index (cache) -/

/-- The metadata container (`metav1.Object`): name, namespace, and the two
string maps.  Nil maps are identified with empty ones (the encoder's lazy
allocation is then the identity). -/
structure Meta where
  name : Str := []
  nspace : Str := []
  labels : List (Str × Str) := []
  annotations : List (Str × Str) := []
deriving DecidableEq, Repr

/-- `fieldInfo`: a field's position in the (flattened) record together with
its parsed tag.  The Go `path []int` through nested/embedded structs is
modelled as a single slot index into the flat record produced by the type
traversal. -/
structure FieldInfo where
  path : Nat
  tag : ParsedTag
deriving DecidableEq, Repr

/-- The five-bucket field index (`cache`). -/
structure Cache where
  NameFastAccess : List FieldInfo := []
  NamespaceFastAccess : List FieldInfo := []
  AnnotationFastAccess : List (Str × List FieldInfo) := []
  LabelsFastAccess : List (Str × List FieldInfo) := []
  CustomFieldsFastAccess : List FieldInfo := []
deriving DecidableEq, Repr

/-- One iteration of the field loop in `cache.build`: the `switch pt.source`
that appends the entry to its bucket.  An annotation/label entry is indexed
under its primary key `pt.value` only; an unsourced entry joins the custom
bucket only when its encoding is `custom`. -/
def addField (c : Cache) (item : FieldInfo) : Cache :=
  match item.tag.source with
  | .name => {c with NameFastAccess := c.NameFastAccess ++ [item]}
  | .nspace => {c with NamespaceFastAccess := c.NamespaceFastAccess ++ [item]}
  | .annot =>
    let v := ((lookupA c.AnnotationFastAccess item.tag.value).getD []) ++ [item]
    {c with AnnotationFastAccess := setA c.AnnotationFastAccess item.tag.value v}
  | .label =>
    let v := ((lookupA c.LabelsFastAccess item.tag.value).getD []) ++ [item]
    {c with LabelsFastAccess := setA c.LabelsFastAccess item.tag.value v}
  | .undef =>
    if item.tag.enc = .custom
    then {c with CustomFieldsFastAccess := c.CustomFieldsFastAccess ++ [item]}
    else c

/-- `cache.build`, over the list of tagged fields the type traversal
(`visit` + `parseTag`) yields in traversal order (fields whose `parseTag`
is nil never reach the switch and are not in the list). -/
def buildCache (fields : List FieldInfo) : Cache :=
  fields.foldl addField {}

/-- Fast-access lookup `cache.AnnotationFastAccess[k]` (a missing key is the
empty list). -/
def lookupFA (m : List (Str × List FieldInfo)) (k : Str) : List FieldInfo :=
  (lookupA m k).getD []

/-- The exact visiting order of `iterate`: name entries, namespace entries,
then for each key actually present in the container's annotations (labels)
the entries indexed under that key, then the custom bucket. -/
def visitOrder (c : Cache) (meta : Meta) : List FieldInfo :=
  c.NameFastAccess ++ c.NamespaceFastAccess
    ++ (meta.annotations.flatMap fun kv => lookupFA c.AnnotationFastAccess kv.1)
    ++ (meta.labels.flatMap fun kv => lookupFA c.LabelsFastAccess kv.1)
    ++ c.CustomFieldsFastAccess

/-! ## Decode driver -/

/-- `match`: the container value for a tag — the declared (primary) key
first, then each alias in declared order, first match wins, empty string
when nothing matches. -/
def matchAliases (values : List (Str × Str)) : List Str → Str
  | [] => []
  | a :: rest =>
    match lookupA values a with
    | some v => v
    | none => matchAliases values rest

def matchTag (values : List (Str × Str)) (tag : ParsedTag) : Str :=
  match lookupA values tag.value with
  | some v => v
  | none => matchAliases values tag.aliases

/-- `decodeJson`: `encoding/json` is an external collaborator (out of scope
per the specification); the branch is left failing and no theorem below
exercises it. -/
def decodeJson (_t : Ty) (_cur : Val) (_s : Str) : Except Unit Val := .error ()

/-- `encodeJson`: same status as `decodeJson`. -/
def encodeJson (_v : Val) : Except Unit Str := .error ()

/-- `decodeCustom`: requires the target type to implement
`metaser.MetadataUnmarshaler`; no type of the modelled universe does, so the
method lookup fails for every modelled value. -/
def decodeCustom (_cur : Val) (_meta : Meta) : Except Unit Val := .error ()

/-- `decodeWithEncoder`: undefined encoding dispatches on type shape, `json`
to the JSON codec; a `custom` encoding falls through the switch and returns
nil with the target untouched. -/
def decodeWithEncoder (t : Ty) (cur : Val) (s : Str) (enc : Enc) : Except Unit Val :=
  match enc with
  | .undef => decodeUndefined t cur s
  | .jsonEnc => decodeJson t cur s
  | .custom => .ok cur

/-- `decodeField` (first `decoder.go`): skip `out`-only and `inline`
entries, then dispatch on the source, with annotation/label values resolved
through `match`. -/
def decodeField (meta : Meta) (tag : ParsedTag) (t : Ty) (cur : Val) : Except Unit Val :=
  if tag.dir = .outDir then .ok cur
  else if tag.inline then .ok cur
  else
    match tag.source with
    | .name => decodePrimitive t cur meta.name
    | .nspace => decodePrimitive t cur meta.nspace
    | .label => decodeWithEncoder t cur (matchTag meta.labels tag) tag.enc
    | .annot => decodeWithEncoder t cur (matchTag meta.annotations tag) tag.enc
    | .undef => decodeCustom cur meta

/-- A record instance: every slot holds its type shape and current value.
(The slot index models the field's path from the root.) -/
def Record := Nat → Ty × Val

/-- Updating one slot's value. -/
def updateRec (rec : Record) (i : Nat) (v : Val) : Record :=
  fun j => if j = i then ((rec i).1, v) else rec j

/-- What a field-level failure was (conversion vs. immutability); stands for
the wrapped Go error message recorded in the `field.ErrorList`. -/
inductive FailKind where
  | convFail
  | immutableFail
deriving DecidableEq, Repr

/-- An entry of the accumulated `field.ErrorList`: violated source, key,
failure kind. -/
abbrev FieldErr := Source × Str × FailKind

/-- The error returned by `Decode`: a fail-fast wrapped field error, or the
`decodeError` aggregating the accumulated list. -/
inductive DriverErr where
  | fieldFailure (src : Source) (key : Str) (kind : FailKind)
  | multiFailure (errs : List FieldErr)
deriving DecidableEq, Repr

/-- Decode options (the `decodeContext` flags set by `DecodeOption`s). -/
structure DecodeOpts where
  performValidation : Bool := false
  accumulateFieldErrors : Bool := false
  skipDefaultWorkload : Bool := false
  filter : Option (FieldInfo → Bool) := none

/-- `fieldFilter.Apply`: a nil filter accepts everything. -/
def applyFilter (filt : Option (FieldInfo → Bool)) (e : FieldInfo) : Bool :=
  match filt with
  | none => true
  | some f => f e

/-- `validateField`: a `setonce` field whose live value is zero skips the
equality check; otherwise `immutable`/`setonce` fields are decoded into a
fresh zero throwaway copy (`reflect.New(v.Type()).Elem()`) and compared by
deep equality, never touching the live value. -/
def validateField (meta : Meta) (tag : ParsedTag) (t : Ty) (v : Val) : Option FailKind :=
  if tag.setOnce && isZero v then none
  else if tag.setOnce || tag.immutable then
    match decodeField meta tag t (zeroVal t) with
    | .error _ => some .convFail
    | .ok cv => if !valEq v cv then some .immutableFail else none
  else none

/-- The `decode` workload over `iterate`'s visit order: on a field error,
abort in fail-fast mode or append to the error list and continue in
accumulation mode. -/
def decodeSteps (accum : Bool) (filt : Option (FieldInfo → Bool)) (meta : Meta) :
    List FieldInfo → Record → List FieldErr →
    Record × List FieldErr × Option DriverErr
  | [], rec, errs => (rec, errs, none)
  | e :: rest, rec, errs =>
    if applyFilter filt e then
      match decodeField meta e.tag (rec e.path).1 (rec e.path).2 with
      | .ok v' => decodeSteps accum filt meta rest (updateRec rec e.path v') errs
      | .error _ =>
        if accum then
          decodeSteps accum filt meta rest rec (errs ++ [(e.tag.source, e.tag.value, .convFail)])
        else (rec, errs, some (.fieldFailure e.tag.source e.tag.value .convFail))
    else decodeSteps accum filt meta rest rec errs

/-- The `validate` workload over the same visit order; it never writes to
the record. -/
def validateSteps (accum : Bool) (filt : Option (FieldInfo → Bool)) (meta : Meta) :
    List FieldInfo → Record → List FieldErr → List FieldErr × Option DriverErr
  | [], _, errs => (errs, none)
  | e :: rest, rec, errs =>
    if applyFilter filt e then
      match validateField meta e.tag (rec e.path).1 (rec e.path).2 with
      | none => validateSteps accum filt meta rest rec errs
      | some kind =>
        if accum then
          validateSteps accum filt meta rest rec (errs ++ [(e.tag.source, e.tag.value, kind)])
        else (errs, some (.fieldFailure e.tag.source e.tag.value kind))
  else validateSteps accum filt meta rest rec errs

/-- Wrap a finished iteration: a fail-fast abort wins, else a nonempty
accumulated list becomes the aggregate `decodeError`. -/
def finishIterate (errs : List FieldErr) (abort : Option DriverErr) : Option DriverErr :=
  match abort with
  | some e => some e
  | none => if errs.isEmpty then none else some (.multiFailure errs)

/-- `Decoder.Decode` over an already-traversed field list: build the cache,
apply options, run the validation workload (aborting the whole decode on
its error, with the record untouched), then the default decode workload. -/
def Decode (fields : List FieldInfo) (meta : Meta) (rec : Record) (opts : DecodeOpts) :
    Record × Option DriverErr :=
  let c := buildCache fields
  let order := visitOrder c meta
  if opts.performValidation then
    match validateSteps opts.accumulateFieldErrors opts.filter meta order rec [] with
    | (errs, abort) =>
      match finishIterate errs abort with
      | some err => (rec, some err)
      | none =>
        if !opts.skipDefaultWorkload then
          match decodeSteps opts.accumulateFieldErrors opts.filter meta order rec [] with
          | (rec', errs', abort') => (rec', finishIterate errs' abort')
        else (rec, none)
  else
    if !opts.skipDefaultWorkload then
      match decodeSteps opts.accumulateFieldErrors opts.filter meta order rec [] with
      | (rec', errs', abort') => (rec', finishIterate errs' abort')
    else (rec, none)

/-! ## Encode driver (`part_002`) -/

/-- `structField`: a value paired with its parsed tag (nil when the field is
unmanaged). -/
structure StructField where
  value : Val
  tag : Option ParsedTag
deriving Repr

/-- `encodeCustom`: a nil pointer is skipped; no modelled type implements
`metaser.MetadataMarshaler`, so every other value fails the method lookup. -/
def encodeCustom (v : Val) (meta : Meta) : Except Unit Meta :=
  match v with
  | .vptr none => .ok meta
  | _ => .error ()

/-- `encode(in, enc, meta)`: undefined encoding → shape dispatch; `json` →
JSON codec; `custom` → the container-writing interface (which returns no
string). -/
def encodeWith (v : Val) (enc : Enc) (meta : Meta) : Except Unit (Str × Meta) :=
  match enc with
  | .undef => (encodeUndefined v).map fun s => (s, meta)
  | .jsonEnc => (encodeJson v).map fun s => (s, meta)
  | .custom => (encodeCustom v meta).map fun m => ([], m)

/-- `encodeField`: skip unmanaged, `in`-only and `inline` entries; an
`omitempty` field with a zero value *deletes* its key from the label or
annotation map; otherwise convert and write to the declared bucket (the
label/annotation maps `ec.out` alias the container's maps). -/
def encodeField (meta : Meta) (dv : StructField) : Except Unit Meta :=
  match dv.tag with
  | none => .ok meta
  | some tag =>
    if tag.dir = .inDir ∨ tag.inline then .ok meta
    else if tag.omitempty && isZero dv.value then
      match tag.source with
      | .label => .ok {meta with labels := eraseA meta.labels tag.value}
      | .annot => .ok {meta with annotations := eraseA meta.annotations tag.value}
      | _ => .ok meta
    else
      match tag.source with
      | .name => (encodePrimitive dv.value).map fun s => {meta with name := s}
      | .nspace => (encodePrimitive dv.value).map fun s => {meta with nspace := s}
      | .label =>
        (encodeWith dv.value tag.enc meta).map fun sm =>
          {sm.2 with labels := setA sm.2.labels tag.value sm.1}
      | .annot =>
        (encodeWith dv.value tag.enc meta).map fun sm =>
          {sm.2 with annotations := setA sm.2.annotations tag.value sm.1}
      | .undef => (encodeWith dv.value tag.enc meta).map fun sm => sm.2

/-- The `Encode` work loop pops fields from the end of the stack
`appendFieldValues` filled in declaration order, so it processes the
reversed field list head-first.  (Inline expansion re-pushes a struct's
fields; the modelled records are already flattened.) -/
def encodeLoopRev (meta : Meta) : List StructField → Except Unit Meta
  | [] => .ok meta
  | v :: rest =>
    match encodeField meta v with
    | .ok m => encodeLoopRev m rest
    | .error e => .error e

/-- `Encoder.Encode` on a flattened record: lazy map allocation is the
identity under the nil-map ≡ empty-map convention, then the stack loop. -/
def Encode (fields : List StructField) (meta : Meta) : Except Unit Meta :=
  encodeLoopRev meta fields.reverse

/-! ## The explicit-optionality wrapper (`option.go`)

`MOption` models `metaser.Option[T]` (Lean's root namespace already owns the
name `Option`): a `value` plus an `isSet` presence flag, in that field
order.  `Get`'s Go panic is modelled as the `Except.error` branch carrying
the panic message. -/

structure MOption (T : Type) where
  value : T
  isSet : Bool

/-- `Some(value)`. -/
def MOption.Some {T : Type} (value : T) : MOption T := ⟨value, true⟩

/-- `None[T]()`: the zero value with the flag unset. -/
def MOption.None (T : Type) [Inhabited T] : MOption T := ⟨default, false⟩

/-- `Get`: the contained value, or a panic when the value was not set. -/
def MOption.Get {T : Type} (s : MOption T) : Except String T :=
  if s.isSet then .ok s.value else .error "Option value is not set."

/-- `GetOrDefault`: the contained value, or the supplied default. -/
def MOption.GetOrDefault {T : Type} (s : MOption T) (d : T) : T :=
  if s.isSet then s.value else d

/-- `IsSet`. -/
def MOption.IsSet {T : Type} (s : MOption T) : Bool := s.isSet

/-! ## C9: `Option.Get` / `GetOrDefault` contract -/

/-- C9.  `Get` returns the contained value exactly when the presence flag is
set and panics exactly when it is not; `GetOrDefault` is total (it never
reaches a panic branch and returns the value or the default); under the
precondition `isSet`, `Get`'s panic branch is unreachable. -/
theorem optionGet_panics_iff_absent {T : Type} (s : MOption T) (d : T) :
    (s.isSet = true → s.Get = .ok s.value ∧ ∀ msg, s.Get ≠ .error msg) ∧
    (s.isSet = false → s.Get = .error "Option value is not set.") ∧
    s.GetOrDefault d = (if s.isSet then s.value else d) := by
  refine ⟨fun h => ?_, fun h => ?_, rfl⟩
  · constructor
    · simp [MOption.Get, h]
    · intro msg
      simp [MOption.Get, h]
  · simp [MOption.Get, h]

/-- Witness for C9 at concrete inputs: a present `Option` yields its value
and cannot panic; an absent one panics on `Get` yet `GetOrDefault` returns
the default. -/
theorem optionGet_panics_iff_absent_witness :
    (MOption.Some true).Get = .ok true ∧
    ((MOption.Some true).Get ≠ .error "Option value is not set.") ∧
    (MOption.None Bool).Get = .error "Option value is not set." ∧
    (MOption.None Bool).GetOrDefault true = true := by
  have hsome := optionGet_panics_iff_absent (MOption.Some true) false
  have hnone := optionGet_panics_iff_absent (MOption.None Bool) true
  refine ⟨(hsome.1 rfl).1, (hsome.1 rfl).2 _, hnone.2.1 rfl, ?_⟩
  rw [hnone.2.2]
  rfl

/-! ## C5: the boolean literal set -/

/-- C5 as the specification states it: `true` exactly for the
case-insensitive literals `true`/`1`, `false` exactly for the
case-insensitive `false`/`0`, an error otherwise. -/
def boolClaimCaseInsensitive : Prop :=
  ∀ s : Str,
    (parseBool s = some true ↔
      (s.map Char.toLower = str "true" ∨ s.map Char.toLower = str "1")) ∧
    (parseBool s = some false ↔
      (s.map Char.toLower = str "false" ∨ s.map Char.toLower = str "0"))

/-- C5 counterexample: Go's `strconv.ParseBool` accepts the single letter
`"t"` as `true`, which the claimed case-insensitive set rejects (and,
conversely, the code rejects mixed-case `"tRuE"`). -/
theorem boolClaimCaseInsensitive_refuted : ¬ boolClaimCaseInsensitive := by
  intro h
  have h1 := ((h (str "t")).1).mp (by decide)
  exact absurd h1 (by decide)

/-- C5 amended: decoding a boolean assigns `true` exactly for the literals
`1`, `t`, `T`, `TRUE`, `true`, `True`, assigns `false` exactly for `0`,
`f`, `F`, `FALSE`, `false`, `False`, and is a parse error (leaving the slot
unassigned) for every other string. -/
theorem assignToBool_literal_sets (s : Str) :
    (assignToBool s = .ok (.vbool true) ↔
      (s = str "1" ∨ s = str "t" ∨ s = str "T" ∨ s = str "TRUE" ∨
        s = str "true" ∨ s = str "True")) ∧
    (assignToBool s = .ok (.vbool false) ↔
      (s = str "0" ∨ s = str "f" ∨ s = str "F" ∨ s = str "FALSE" ∨
        s = str "false" ∨ s = str "False")) ∧
    (assignToBool s = .error () ↔
      ¬((s = str "1" ∨ s = str "t" ∨ s = str "T" ∨ s = str "TRUE" ∨
          s = str "true" ∨ s = str "True") ∨
        (s = str "0" ∨ s = str "f" ∨ s = str "F" ∨ s = str "FALSE" ∨
          s = str "false" ∨ s = str "False"))) := by
  unfold assignToBool parseBool
  by_cases h1 : s = str "1" ∨ s = str "t" ∨ s = str "T" ∨ s = str "TRUE" ∨
      s = str "true" ∨ s = str "True"
  · rw [if_pos h1]
    simp only [h1]
    refine ⟨by simp, ?_, by simp⟩
    constructor
    · intro hcontra
      simp at hcontra
    · intro hf
      rcases h1 with h | h | h | h | h | h <;> rcases hf with h' | h' | h' | h' | h' | h' <;>
        subst h <;> simp_all [str]
  · rw [if_neg h1]
    by_cases h2 : s = str "0" ∨ s = str "f" ∨ s = str "F" ∨ s = str "FALSE" ∨
        s = str "false" ∨ s = str "False"
    · rw [if_pos h2]
      refine ⟨by simpa using h1, by simpa using h2, by simp [h1, h2]⟩
    · rw [if_neg h2]
      refine ⟨by simpa using h1, by simpa using h2, by simp [h1, h2]⟩

/-! ## C8: the tag parser contract -/

/-- The bare keywords of the tag grammar, in the order of the `switch`. -/
def bareTokens : List Str :=
  [str "name", str "namespace", str "inline", str "in", str "out",
    str "inout", str "omitempty", str "immutable", str "setonce"]

/-- The recognised keys of `key:value` tokens. -/
def knownKeys : List Str :=
  [str "enc", str "annotation", str "label", str "aliases"]

/-- C8.  `parseTag` returns `(nil, nil)` when no `k8s` declaration is
present; otherwise it folds the comma-separated tokens over a default
descriptor whose source is unset, encoding default, direction `inout`, key
empty, aliases empty and every flag false; and an unknown bare token or a
malformed / unknown-key `key:value` token produces an error naming the
offending token. -/
theorem parseTag_contract :
    (∀ raw : Str, findK8sTag (fieldsWS raw) = [] → parseTag raw = .ok none) ∧
    (defaultParsedTag.source = .undef ∧ defaultParsedTag.enc = .undef ∧
      defaultParsedTag.dir = .inoutDir ∧ defaultParsedTag.value = [] ∧
      defaultParsedTag.inline = false ∧ defaultParsedTag.omitempty = false ∧
      defaultParsedTag.immutable = false ∧ defaultParsedTag.setOnce = false ∧
      defaultParsedTag.aliases = [] ∧
      ∀ raw : Str, findK8sTag (fieldsWS raw) ≠ [] →
        parseTag raw =
          ((splitChar ',' (findK8sTag (fieldsWS raw))).foldlM applyToken
            defaultParsedTag).map some) ∧
    (∀ (pt : ParsedTag) (f : Str), f ∉ bareTokens →
      ((splitChar ':' f).length ≠ 2 → applyToken pt f = .error (.unknownOption f)) ∧
      (∀ k v, splitChar ':' f = [k, v] → k ∉ knownKeys →
        applyToken pt f = .error (.unknownKey k))) := by
  refine ⟨?_, ⟨rfl, rfl, rfl, rfl, rfl, rfl, rfl, rfl, rfl, ?_⟩, ?_⟩
  · intro raw h
    simp [parseTag, h]
  · intro raw h
    simp [parseTag, h]
  · intro pt f hf
    simp only [bareTokens, List.mem_cons, List.not_mem_nil, or_false, not_or] at hf
    obtain ⟨h1, h2, h3, h4, h5, h6, h7, h8, h9⟩ := hf
    constructor
    · intro hlen
      unfold applyToken
      rw [if_neg h1, if_neg h2, if_neg h3, if_neg h4, if_neg h5, if_neg h6,
        if_neg h7, if_neg h8, if_neg h9]
      rcases hsp : splitChar ':' f with _ | ⟨k, _ | ⟨v, _ | ⟨w, rest⟩⟩⟩
      · rfl
      · rfl
      · exact absurd (by rw [hsp]; rfl) hlen
      · rfl
    · intro k v hsp hk
      simp only [knownKeys, List.mem_cons, List.not_mem_nil, or_false, not_or] at hk
      obtain ⟨hk1, hk2, hk3, hk4⟩ := hk
      unfold applyToken
      rw [if_neg h1, if_neg h2, if_neg h3, if_neg h4, if_neg h5, if_neg h6,
        if_neg h7, if_neg h8, if_neg h9, hsp]
      simp only [if_neg hk1, if_neg hk2, if_neg hk3, if_neg hk4]

/-- Witness for C8 at concrete declarations: a tag without a `k8s`
declaration is unmanaged; the bare token `bogus` and the key-value token
`foo:bar` fail naming the offending token. -/
theorem parseTag_contract_witness :
    parseTag (str "json:\"x\"") = .ok none ∧
    applyToken defaultParsedTag (str "bogus") = .error (.unknownOption (str "bogus")) ∧
    applyToken defaultParsedTag (str "foo:bar") = .error (.unknownKey (str "foo")) := by
  have h := parseTag_contract
  refine ⟨h.1 _ (by decide), ?_, ?_⟩
  · exact (h.2.2 defaultParsedTag (str "bogus") (by decide)).1 (by decide)
  · exact (h.2.2 defaultParsedTag (str "foo:bar") (by decide)).2
      (str "foo") (str "bar") (by decide) (by decide)

/-! ## C6: exact-bit-width integer decoding -/

/-- The mathematical value denoted by a signed base-10 numeral (optional
single sign, decimal digits, no width constraint): the numeric semantics
against which the implementation is compared. -/
def signedDenote : Str → Option Int
  | [] => none
  | c :: rest =>
    if c = '-' then (parseNat rest).map fun m => -(m : Int)
    else if c = '+' then (parseNat rest).map fun m => (m : Int)
    else (parseNat (c :: rest)).map fun m => (m : Int)

/-- `strconv.ParseInt` succeeds exactly on numerals denoting an in-range
value, and then returns that exact value. -/
theorem parseInt_eq_denote (s : Str) (bits : Nat) :
    parseInt s bits =
      match signedDenote s with
      | some n =>
        if -(2 ^ (bits - 1) : Int) ≤ n ∧ n < (2 ^ (bits - 1) : Int) then some n else none
      | none => none := by
  cases s with
  | nil => rfl
  | cons c rest =>
    simp only [parseInt, signedDenote]
    by_cases hdash : c = '-'
    · rw [if_pos hdash, if_pos hdash]
      cases hp : parseNat rest <;> simp [parseIntCore, hp]
    · rw [if_neg hdash, if_neg hdash]
      by_cases hplus : c = '+'
      · rw [if_pos hplus, if_pos hplus]
        cases hp : parseNat rest <;> simp [parseIntCore, hp]
      · rw [if_neg hplus, if_neg hplus]
        cases hp : parseNat (c :: rest) <;> simp [parseIntCore, hp]

/-- C6.  For the supported widths (8/16/32/64 and the platform word),
integer decoding parses base 10 only: the signed slot is assigned exactly
the denoted value when it fits `[-2^(w-1), 2^(w-1))`, the unsigned slot
exactly the denoted value when it fits `[0, 2^w)`, any overflow or
non-numeral is a decode error, and on such an error the driver leaves the
field slot unassigned (fail-fast aborts with the record unchanged,
accumulation records the error and continues with the record unchanged). -/
theorem intDecode_exact_width (w : Nat)
    (hw : w = 8 ∨ w = 16 ∨ w = 32 ∨ w = 64 ∨ w = wordSize) :
    (∀ s n, assignToInt s w = .ok (.vint n) ↔
      (signedDenote s = some n ∧ -(2 ^ (w - 1) : Int) ≤ n ∧ n < (2 ^ (w - 1) : Int))) ∧
    (∀ s, assignToInt s w = .error () ↔
      ¬∃ n, signedDenote s = some n ∧ -(2 ^ (w - 1) : Int) ≤ n ∧ n < (2 ^ (w - 1) : Int)) ∧
    (∀ s n, assignToUInt s w = .ok (.vuint n) ↔ (parseNat s = some n ∧ n < 2 ^ w)) ∧
    (∀ s, assignToUInt s w = .error () ↔ ¬∃ n, parseNat s = some n ∧ n < 2 ^ w) ∧
    (∀ (meta : Meta) (filt : Option (FieldInfo → Bool)) (e : FieldInfo)
        (rest : List FieldInfo) (rec : Record) (errs : List FieldErr),
      applyFilter filt e = true →
      decodeField meta e.tag (rec e.path).1 (rec e.path).2 = .error () →
      decodeSteps false filt meta (e :: rest) rec errs =
        (rec, errs, some (.fieldFailure e.tag.source e.tag.value .convFail)) ∧
      decodeSteps true filt meta (e :: rest) rec errs =
        decodeSteps true filt meta rest rec
          (errs ++ [(e.tag.source, e.tag.value, .convFail)])) := by
  clear hw
  refine ⟨?_, ?_, ?_, ?_, ?_⟩
  · intro s n
    unfold assignToInt
    rw [parseInt_eq_denote]
    cases hd : signedDenote s with
    | none => simp
    | some m =>
      by_cases hr : -(2 ^ (w - 1) : Int) ≤ m ∧ m < (2 ^ (w - 1) : Int)
      · simp only [hr, if_true, Option.some.injEq]
        constructor
        · intro hok
          have hmn : m = n := by simpa using hok
          subst hmn
          exact ⟨rfl, hr⟩
        · rintro ⟨hmn, _⟩
          subst hmn
          rfl
      · simp only [hr, if_false]
        constructor
        · intro hcontra
          simp at hcontra
        · rintro ⟨hmn, hrange⟩
          rw [Option.some.injEq] at hmn
          subst hmn
          exact absurd hrange hr
  · intro s
    unfold assignToInt
    rw [parseInt_eq_denote]
    cases hd : signedDenote s with
    | none => simp
    | some m =>
      by_cases hr : -(2 ^ (w - 1) : Int) ≤ m ∧ m < (2 ^ (w - 1) : Int)
      · simp only [hr, if_true]
        constructor
        · intro hcontra
          simp at hcontra
        · intro hcontra
          exact absurd ⟨m, rfl, hr⟩ hcontra
      · simp only [hr, if_false]
        refine iff_of_true trivial ?_
        rintro ⟨n, hmn, hrange⟩
        rw [Option.some.injEq] at hmn
        subst hmn
        exact hr hrange
  · intro s n
    unfold assignToUInt parseUint
    cases hd : parseNat s with
    | none => simp
    | some m =>
      by_cases hr : m < 2 ^ w
      · simp only [hr, if_true]
        constructor
        · intro hok
          have hmn : m = n := by simpa using hok
          subst hmn
          exact ⟨rfl, hr⟩
        · rintro ⟨hmn, _⟩
          rw [Option.some.injEq] at hmn
          subst hmn
          rfl
      · simp only [hr, if_false]
        constructor
        · intro hcontra
          simp at hcontra
        · rintro ⟨hmn, hrange⟩
          rw [Option.some.injEq] at hmn
          subst hmn
          exact absurd hrange hr
  · intro s
    unfold assignToUInt parseUint
    cases hd : parseNat s with
    | none => simp
    | some m =>
      by_cases hr : m < 2 ^ w
      · simp only [hr, if_true]
        constructor
        · intro hcontra
          simp at hcontra
        · intro hcontra
          exact absurd ⟨m, rfl, hr⟩ hcontra
      · simp only [hr, if_false]
        refine iff_of_true trivial ?_
        rintro ⟨n, hmn, hrange⟩
        rw [Option.some.injEq] at hmn
        subst hmn
        exact hr hrange
  · intro meta filt e rest rec errs hfil herr
    refine ⟨?_, ?_⟩
    · conv_lhs => rw [decodeSteps]
      rw [if_pos hfil, herr]
      rfl
    · conv_lhs => rw [decodeSteps]
      rw [if_pos hfil, herr]
      rfl

/-- Witness for C6 at width 8: `127` decodes exactly, `128` overflows to a
decode error, `256` overflows the unsigned width. -/
theorem intDecode_exact_width_witness :
    assignToInt (str "127") 8 = .ok (.vint 127) ∧
    assignToInt (str "128") 8 = .error () ∧
    assignToUInt (str "256") 8 = .error () := by
  have h := intDecode_exact_width 8 (by norm_num)
  refine ⟨?_, ?_, ?_⟩
  · exact (h.1 (str "127") 127).mpr ⟨by decide, by decide, by decide⟩
  · refine (h.2.1 (str "128")).mpr ?_
    rintro ⟨n, hn, _, hhi⟩
    rw [show signedDenote (str "128") = some (128 : Int) from by decide] at hn
    have : (128 : Int) = n := by simpa using hn
    omega
  · refine (h.2.2.2.1 (str "256")).mpr ?_
    rintro ⟨n, hn, hlt⟩
    rw [show parseNat (str "256") = some 256 from by decide] at hn
    have : (256 : Nat) = n := by simpa using hn
    omega

theorem lookupA_setA {α : Type} (m : List (Str × α)) (k : Str) (v : α) :
    lookupA (setA m k v) k = some v := by
  induction m with
  | nil => simp [setA, lookupA]
  | cons kv rest ih =>
    obtain ⟨k', v'⟩ := kv
    by_cases h : k' = k
    · simp [setA, lookupA, h]
    · simp [setA, lookupA, h, ih]

/-! ## C3: omitempty removes the key -/

/-- C3.  An annotation- or label-sourced field tagged `omitempty` whose
value is the zero value of its type makes `encodeField` *delete* the
declared key from the corresponding container map — a key present before
the call is absent after it — and `Encoder.Encode` on a record holding such
a field does the same to the container. -/
theorem omitempty_zero_removes_key (meta : Meta) (dv : StructField) (tag : ParsedTag)
    (htag : dv.tag = some tag) (hdir : tag.dir ≠ .inDir) (hinl : tag.inline = false)
    (homit : tag.omitempty = true) (hzero : isZero dv.value = true) :
    (tag.source = .annot →
      encodeField meta dv = .ok {meta with annotations := eraseA meta.annotations tag.value} ∧
      Encode [dv] meta = .ok {meta with annotations := eraseA meta.annotations tag.value} ∧
      lookupA (eraseA meta.annotations tag.value) tag.value = none) ∧
    (tag.source = .label →
      encodeField meta dv = .ok {meta with labels := eraseA meta.labels tag.value} ∧
      Encode [dv] meta = .ok {meta with labels := eraseA meta.labels tag.value} ∧
      lookupA (eraseA meta.labels tag.value) tag.value = none) := by
  have hskip : ¬(tag.dir = .inDir ∨ tag.inline = true) := by
    rintro (h | h)
    · exact hdir h
    · rw [hinl] at h; exact absurd h (by simp)
  constructor
  · intro hsrc
    have henc : encodeField meta dv =
        .ok {meta with annotations := eraseA meta.annotations tag.value} := by
      unfold encodeField
      rw [htag]
      simp only [hinl, Bool.false_eq_true, or_false]
      rw [if_neg hdir, if_pos (by rw [homit, hzero]; rfl), hsrc]
    refine ⟨henc, ?_, lookupA_eraseA _ _⟩
    unfold Encode encodeLoopRev
    simp only [List.reverse_singleton]
    rw [henc]
    rfl
  · intro hsrc
    have henc : encodeField meta dv =
        .ok {meta with labels := eraseA meta.labels tag.value} := by
      unfold encodeField
      rw [htag]
      simp only [hinl, Bool.false_eq_true, or_false]
      rw [if_neg hdir, if_pos (by rw [homit, hzero]; rfl), hsrc]
    refine ⟨henc, ?_, lookupA_eraseA _ _⟩
    unfold Encode encodeLoopRev
    simp only [List.reverse_singleton]
    rw [henc]
    rfl

/-- Witness for C3: re-encoding a zero `omitempty` int annotation into a
container that already holds the key removes the key. -/
theorem omitempty_zero_removes_key_witness :
    Encode [⟨.vint 0, some {source := .annot, value := str "k", omitempty := true}⟩]
        {annotations := [(str "k", str "old")]} =
      .ok ({annotations := []} : Meta) ∧
    lookupA (eraseA [(str "k", str "old")] (str "k")) (str "k") = none := by
  have h := (omitempty_zero_removes_key {annotations := [(str "k", str "old")]}
    ⟨.vint 0, some {source := .annot, value := str "k", omitempty := true}⟩
    {source := .annot, value := str "k", omitempty := true}
    rfl (by decide) rfl rfl (by decide)).1 rfl
  refine ⟨?_, h.2.2⟩
  have := h.2.1
  rw [this]
  rfl

/-! ## C10: nil pointers and absent Options encode as the empty string -/

/-- C10.  An annotation- or label-sourced field *not* tagged `omitempty`
(default encoding) whose value is a nil pointer, or an `Option` with the
presence flag unset, is written as the empty string under its declared key:
after `encodeField` (and after `Encoder.Encode` of a record holding the
field) the key is present in the map with value `""`. -/
theorem encode_nil_writes_empty_string (meta : Meta) (dv : StructField) (tag : ParsedTag)
    (htag : dv.tag = some tag) (hdir : tag.dir ≠ .inDir) (hinl : tag.inline = false)
    (homit : tag.omitempty = false) (henc : tag.enc = .undef)
    (hval : dv.value = .vptr none ∨ ∃ w, dv.value = .vopt false w) :
    (tag.source = .annot →
      encodeField meta dv = .ok {meta with annotations := setA meta.annotations tag.value []} ∧
      Encode [dv] meta = .ok {meta with annotations := setA meta.annotations tag.value []} ∧
      lookupA (setA meta.annotations tag.value []) tag.value = some []) ∧
    (tag.source = .label →
      encodeField meta dv = .ok {meta with labels := setA meta.labels tag.value []} ∧
      Encode [dv] meta = .ok {meta with labels := setA meta.labels tag.value []} ∧
      lookupA (setA meta.labels tag.value []) tag.value = some []) := by
  have hempty : encodeUndefined dv.value = .ok [] := by
    rcases hval with h | ⟨w, h⟩ <;> rw [h]
    · rw [encodeUndefined, encodePrimitive]
      simp
    · rw [encodeUndefined, encodeOption]
      simp
  have hw : encodeWith dv.value tag.enc meta = .ok ([], meta) := by
    rw [henc]
    unfold encodeWith
    rw [hempty]
    rfl
  constructor
  · intro hsrc
    have hef : encodeField meta dv =
        .ok {meta with annotations := setA meta.annotations tag.value []} := by
      unfold encodeField
      rw [htag]
      simp only [hinl, Bool.false_eq_true, or_false]
      rw [if_neg hdir, if_neg (by rw [homit]; simp), hsrc, hw]
      rfl
    refine ⟨hef, ?_, lookupA_setA _ _ _⟩
    unfold Encode encodeLoopRev
    simp only [List.reverse_singleton]
    rw [hef]
    rfl
  · intro hsrc
    have hef : encodeField meta dv =
        .ok {meta with labels := setA meta.labels tag.value []} := by
      unfold encodeField
      rw [htag]
      simp only [hinl, Bool.false_eq_true, or_false]
      rw [if_neg hdir, if_neg (by rw [homit]; simp), hsrc, hw]
      rfl
    refine ⟨hef, ?_, lookupA_setA _ _ _⟩
    unfold Encode encodeLoopRev
    simp only [List.reverse_singleton]
    rw [hef]
    rfl

/-- Witness for C10: encoding a nil-pointer annotation field into an empty
container makes the key present with value `""`. -/
theorem encode_nil_writes_empty_string_witness :
    Encode [⟨.vptr none, some {source := .annot, value := str "k"}⟩] {} =
      .ok ({annotations := [(str "k", [])]} : Meta) ∧
    lookupA [(str "k", ([] : Str))] (str "k") = some [] := by
  have h := (encode_nil_writes_empty_string {}
    ⟨.vptr none, some {source := .annot, value := str "k"}⟩
    {source := .annot, value := str "k"}
    rfl (by decide) rfl rfl rfl (Or.inl rfl)).1 rfl
  exact ⟨h.2.1, by decide⟩

/-! ## C4: the custom/fallback bucket -/

/-- C4 as the specification states it: an unsourced field marked for custom
*or JSON* handling lands in the custom bucket of the index. -/
def claimCustomOrJsonIndexed : Prop :=
  ∀ (fields : List FieldInfo) (e : FieldInfo), e ∈ fields →
    e.tag.source = .undef → (e.tag.enc = .custom ∨ e.tag.enc = .jsonEnc) →
    e ∈ (buildCache fields).CustomFieldsFastAccess

/-- C4 counterexample: a field with no recognised source and `enc:json` is
*not* added to the custom bucket (`cache.build` requires `enc == custom`),
so it is never visited. -/
theorem claimCustomOrJsonIndexed_refuted : ¬ claimCustomOrJsonIndexed := by
  intro h
  have hmem := h [⟨0, {source := .undef, enc := .jsonEnc}⟩]
    ⟨0, {source := .undef, enc := .jsonEnc}⟩ (by simp) rfl (Or.inr rfl)
  exact absurd hmem (by decide)

theorem addField_custom_mono (c : Cache) (x e : FieldInfo)
    (h : e ∈ c.CustomFieldsFastAccess) :
    e ∈ (addField c x).CustomFieldsFastAccess := by
  unfold addField
  cases x.tag.source <;> simp [h]
  split <;> simp [h]

theorem foldl_addField_custom_mono (l : List FieldInfo) (c : Cache) (e : FieldInfo)
    (h : e ∈ c.CustomFieldsFastAccess) :
    e ∈ (l.foldl addField c).CustomFieldsFastAccess := by
  induction l generalizing c with
  | nil => exact h
  | cons x rest ih => exact ih _ (addField_custom_mono c x e h)

/-- C4 amended: an unsourced field is added to the custom/fallback bucket
exactly when its whole-field encoding is `custom` (a JSON-encoded unsourced
field is dropped), and every entry of that bucket is visited by `iterate`
on every decode, whatever the container holds. -/
theorem custom_bucket_custom_enc_only (fields : List FieldInfo) (e : FieldInfo) :
    (e ∈ fields → e.tag.source = .undef → e.tag.enc = .custom →
      e ∈ (buildCache fields).CustomFieldsFastAccess) ∧
    (∀ meta : Meta, e ∈ (buildCache fields).CustomFieldsFastAccess →
      e ∈ visitOrder (buildCache fields) meta) := by
  constructor
  · intro hmem hsrc henc
    unfold buildCache
    have general : ∀ (l : List FieldInfo) (c : Cache), e ∈ l →
        e ∈ (l.foldl addField c).CustomFieldsFastAccess := by
      intro l
      induction l with
      | nil => intro c h; exact absurd h (by simp)
      | cons x rest ih =>
        intro c hm
        rcases List.mem_cons.mp hm with he | he
        · subst he
          simp only [List.foldl_cons]
          apply foldl_addField_custom_mono
          unfold addField
          rw [hsrc]
          simp [henc]
        · simp only [List.foldl_cons]
          exact ih (addField c x) he
    exact general fields {} hmem
  · intro meta hmem
    unfold visitOrder
    simp [hmem]

/-! ## C2: alias lookup during decode -/

/-- C2 (code bug).  The lookup helper `match` does try the declared key and
then the aliases in order (first and second conjuncts: an alias-only map
resolves to the alias value, and the primary wins when both are present).
But `Decoder.Decode` reaches a field only through the fast-access index,
which `cache.build` keys by the *primary* key alone — so when the container
holds only an alias key the field is never visited and keeps its zero value
(third conjunct), against the alias contract the package documents; with
the primary key present the field does decode (fourth conjunct). -/
theorem alias_only_key_never_decoded :
    matchTag [(str "alt", str "v")]
      {source := .annot, value := str "primary", aliases := [str "alt"]} = str "v" ∧
    matchTag [(str "primary", str "p"), (str "alt", str "v")]
      {source := .annot, value := str "primary", aliases := [str "alt"]} = str "p" ∧
    Decode [⟨0, {source := .annot, value := str "primary", aliases := [str "alt"]}⟩]
      {annotations := [(str "alt", str "v")]} (fun _ => (.tstr, .vstr [])) {} =
      (fun _ => (.tstr, .vstr []), none) ∧
    (Decode [⟨0, {source := .annot, value := str "primary", aliases := [str "alt"]}⟩]
      {annotations := [(str "primary", str "p"), (str "alt", str "v")]}
      (fun _ => (.tstr, .vstr [])) {}).1 0 = (.tstr, .vstr (str "p")) := by
  refine ⟨by decide, by decide, rfl, ?_⟩
  have hdf : decodeField {annotations := [(str "primary", str "p"), (str "alt", str "v")]}
      {source := .annot, value := str "primary", aliases := [str "alt"]}
      .tstr (.vstr []) = .ok (.vstr (str "p")) := by
    unfold decodeField
    rw [if_neg (by decide), if_neg (by decide)]
    show decodeWithEncoder .tstr (.vstr []) _ _ = _
    unfold decodeWithEncoder
    rw [decodeUndefined, decodePrimitive]
    rw [show matchTag [(str "primary", str "p"), (str "alt", str "v")]
      {source := .annot, value := str "primary", aliases := [str "alt"]} = str "p" from by decide]
  show (Decode _ _ _ _).1 0 = _
  unfold Decode
  simp only [Bool.false_eq_true, if_false, Bool.not_false, if_true]
  rw [show visitOrder
      (buildCache [⟨0, {source := .annot, value := str "primary", aliases := [str "alt"]}⟩])
      {annotations := [(str "primary", str "p"), (str "alt", str "v")]} =
      [⟨0, {source := .annot, value := str "primary", aliases := [str "alt"]}⟩] from by decide]
  rw [decodeSteps]
  rw [if_pos (by decide)]
  rw [show ((fun (_ : Nat) => ((Ty.tstr, Val.vstr []) : Ty × Val)) 0).1 = Ty.tstr from rfl]
  rw [show ((fun (_ : Nat) => ((Ty.tstr, Val.vstr []) : Ty × Val)) 0).2 = Val.vstr [] from rfl]
  rw [hdf]
  rw [decodeSteps]
  rfl

/-! ## C7: setonce/immutable validation -/

/-- C7.  With validation enabled: a `setonce` field whose live value is the
zero value skips the equality check entirely; otherwise an `immutable` or
`setonce` field is decoded into a freshly allocated zero throwaway copy and
compared by deep value equality, yielding the `immutable` failure exactly
on mismatch; and whenever the validation phase fails, `Decoder.Decode`
returns that error with the live record exactly as it was passed in (the
decode workload never runs). -/
theorem validate_immutable_setonce (meta : Meta) (tag : ParsedTag) (t : Ty) (v : Val) :
    (tag.setOnce = true → isZero v = true → validateField meta tag t v = none) ∧
    ((tag.immutable = true ∨ tag.setOnce = true) →
      ¬(tag.setOnce = true ∧ isZero v = true) →
      validateField meta tag t v =
        match decodeField meta tag t (zeroVal t) with
        | .error _ => some .convFail
        | .ok cv => if !valEq v cv then some .immutableFail else none) ∧
    (∀ (fields : List FieldInfo) (rec : Record) (opts : DecodeOpts) (err : DriverErr),
      opts.performValidation = true →
      (match validateSteps opts.accumulateFieldErrors opts.filter meta
          (visitOrder (buildCache fields) meta) rec [] with
        | (errs, abort) => finishIterate errs abort) = some err →
      Decode fields meta rec opts = (rec, some err)) := by
  refine ⟨?_, ?_, ?_⟩
  · intro hso hz
    unfold validateField
    rw [if_pos (by rw [hso, hz]; rfl)]
  · intro hor hnskip
    unfold validateField
    rw [if_neg ?_, if_pos ?_]
    · rcases hor with h | h <;> simp [h]
    · intro hcontra
      rw [Bool.and_eq_true] at hcontra
      exact hnskip hcontra
  · intro fields rec opts err hperf hfin
    unfold Decode
    rw [if_pos hperf]
    rcases hvs : validateSteps opts.accumulateFieldErrors opts.filter meta
        (visitOrder (buildCache fields) meta) rec [] with ⟨errs, abort⟩
    rw [hvs] at hfin
    simp only at hfin
    simp only [hfin]

/-- Witness for C7: a live `"x"` against a recorded `"y"` raises the
immutable failure (and `Decode` with validation returns the record
untouched together with that error), while a `setonce` field with a zero
live value validates silently. -/
theorem validate_immutable_setonce_witness :
    validateField {annotations := [(str "k", str "y")]}
      {source := .annot, value := str "k", immutable := true} .tstr (.vstr (str "x")) =
      some .immutableFail ∧
    validateField {annotations := [(str "k", str "y")]}
      {source := .annot, value := str "k", setOnce := true} .tstr (.vstr []) = none ∧
    Decode [⟨0, {source := .annot, value := str "k", immutable := true}⟩]
      {annotations := [(str "k", str "y")]} (fun _ => (.tstr, .vstr (str "x")))
      {performValidation := true} =
      (fun _ => (.tstr, .vstr (str "x")),
        some (.fieldFailure .annot (str "k") .immutableFail)) := by
  have hdf : decodeField {annotations := [(str "k", str "y")]}
      {source := .annot, value := str "k", immutable := true} .tstr (zeroVal .tstr) =
      .ok (.vstr (str "y")) := by
    unfold decodeField
    rw [if_neg (by decide), if_neg (by decide)]
    show decodeWithEncoder .tstr (.vstr []) _ _ = _
    unfold decodeWithEncoder
    rw [decodeUndefined, decodePrimitive]
    rw [show matchTag [(str "k", str "y")]
      {source := .annot, value := str "k", immutable := true} = str "y" from by decide]
  have h := validate_immutable_setonce {annotations := [(str "k", str "y")]}
    {source := .annot, value := str "k", immutable := true} .tstr (.vstr (str "x"))
  have hvf : validateField {annotations := [(str "k", str "y")]}
      {source := .annot, value := str "k", immutable := true} .tstr (.vstr (str "x")) =
      some .immutableFail := by
    rw [h.2.1 (Or.inl rfl) (by simp), hdf]
    simp [show valEq (.vstr (str "x")) (.vstr (str "y")) = false from by decide]
  refine ⟨hvf, ?_, ?_⟩
  · exact (validate_immutable_setonce {annotations := [(str "k", str "y")]}
      {source := .annot, value := str "k", setOnce := true} .tstr (.vstr [])).1 rfl rfl
  · have horder : visitOrder
        (buildCache [⟨0, {source := .annot, value := str "k", immutable := true}⟩])
        {annotations := [(str "k", str "y")]} =
        [⟨0, {source := .annot, value := str "k", immutable := true}⟩] := by decide
    have hvs : validateSteps false none {annotations := [(str "k", str "y")]}
        [⟨0, {source := .annot, value := str "k", immutable := true}⟩]
        (fun _ => (.tstr, .vstr (str "x"))) [] =
        ([], some (.fieldFailure .annot (str "k") .immutableFail)) := by
      rw [validateSteps]
      rw [if_pos (by decide)]
      rw [show ((fun (_ : Nat) => ((Ty.tstr, Val.vstr (str "x")) : Ty × Val)) 0).1 = Ty.tstr
        from rfl]
      rw [show ((fun (_ : Nat) => ((Ty.tstr, Val.vstr (str "x")) : Ty × Val)) 0).2 =
        Val.vstr (str "x") from rfl]
      rw [hvf]
      rfl
    exact h.2.2 [⟨0, {source := .annot, value := str "k", immutable := true}⟩]
      (fun _ => (.tstr, .vstr (str "x"))) {performValidation := true}
      (.fieldFailure .annot (str "k") .immutableFail) rfl (by rw [horder, hvs]; rfl)

/-- Witness for C4 (amended): a concrete unsourced `enc:custom` field lands
in the custom bucket and is visited even on an empty container. -/
theorem custom_bucket_custom_enc_only_witness :
    (⟨0, {source := .undef, enc := .custom}⟩ : FieldInfo) ∈
      (buildCache [⟨0, {source := .undef, enc := .custom}⟩]).CustomFieldsFastAccess ∧
    (⟨0, {source := .undef, enc := .custom}⟩ : FieldInfo) ∈
      visitOrder (buildCache [⟨0, {source := .undef, enc := .custom}⟩]) {} := by
  have h := custom_bucket_custom_enc_only [⟨0, {source := .undef, enc := .custom}⟩]
    ⟨0, {source := .undef, enc := .custom}⟩
  have h1 := h.1 (by simp) rfl rfl
  exact ⟨h1, h.2 {} h1⟩

/-! ## C1: round-trip preliminaries

`faithful t v` is the formal reading of the specification's "uses no lossy
encodings, supported scalar/composite shapes" hypothesis: values whose
textual image under the default (type-driven) encoding determines them.
Concretely: machine integers within their width, nonempty arrays / slices /
maps, separator-free element and key images, non-nil pointers to
non-`Option` pointees, and present `Option`s.  (The excluded values really
are lossy under this wire format: an empty slice and a slice of one empty
string both encode to `""`, an absent `Option` encodes like a present empty
value, and a nil pointer like a zero one.) -/

/-- The type shapes whose decode goes through `decodePrimitive` unchanged —
everything except the `Option` wrapper (pointees are decoded with
`decodePrimitive`, so an `Option` directly under a pointer would not decode
back). -/
def primShape : Ty → Bool
  | .topt _ => false
  | _ => true

/-- The encoded image of a value (the string when encoding succeeds). -/
def encodeOf (v : Val) : Str :=
  match encodeUndefined v with
  | .ok s => s
  | .error _ => []

/-- Encoding succeeds and its image avoids the character `c`. -/
def encFree (c : Char) (v : Val) : Bool :=
  match encodeUndefined v with
  | .ok s => !s.contains c
  | .error _ => false

/-- Keys of an association list are pairwise distinct. -/
def nodupKeys {α : Type} : List (Str × α) → Bool
  | [] => true
  | (k, _) :: rest => !(rest.any fun kv => kv.1 = k) && nodupKeys rest

mutual

def faithful : Ty → Val → Bool
  | .tbool, .vbool _ => true
  | .tint w, .vint n => decide (-(2 ^ (w - 1) : Int) ≤ n ∧ n < (2 ^ (w - 1) : Int))
  | .tuint w, .vuint n => decide (n < 2 ^ w)
  | .tstr, .vstr _ => true
  | .tarr n te, .varr xs => decide (xs.length = n) && decide (n ≠ 0) && faithfulElems te xs
  | .tslice te, .vslice xs => !xs.isEmpty && faithfulElems te xs
  | .tmap te, .vmap es => !es.isEmpty && nodupKeys es && faithfulEntries te es
  | .tptr te, .vptr (some w) => primShape te && faithful te w
  | .topt te, .vopt true w => faithful te w
  | _, _ => false
termination_by t _ => (sizeOf t, 0, 0)

def faithfulElems : Ty → List Val → Bool
  | _, [] => true
  | te, x :: xs => faithful te x && encFree ',' x && faithfulElems te xs
termination_by te xs => (sizeOf te, 1, sizeOf xs)

def faithfulEntries : Ty → List (Str × Val) → Bool
  | _, [] => true
  | te, (k, v) :: es =>
    !(k.contains ',') && !(k.contains ':') && faithful te v &&
      encFree ',' v && encFree ':' v && faithfulEntries te es
termination_by te es => (sizeOf te, 1, sizeOf es)

end

theorem lookupA_setA_ne {α : Type} (m : List (Str × α)) (k k' : Str) (v : α)
    (h : k ≠ k') : lookupA (setA m k v) k' = lookupA m k' := by
  induction m with
  | nil => simp [setA, lookupA, h]
  | cons kv rest ih =>
    obtain ⟨k0, v0⟩ := kv
    by_cases h0 : k0 = k
    · subst h0
      simp [setA, lookupA, h]
    · simp only [setA, if_neg h0]
      by_cases h1 : k0 = k'
      · simp [lookupA, h1]
      · simp [lookupA, h1, ih]

theorem eraseA_cons {α : Type} (k0 : Str) (v0 : α) (rest : List (Str × α)) (k : Str) :
    eraseA ((k0, v0) :: rest) k =
      if k0 = k then eraseA rest k else (k0, v0) :: eraseA rest k := by
  simp only [eraseA, List.filter_cons]
  by_cases h0 : k0 = k <;> simp [h0]

theorem lookupA_eraseA_ne {α : Type} (m : List (Str × α)) (k k' : Str)
    (h : k ≠ k') : lookupA (eraseA m k) k' = lookupA m k' := by
  induction m with
  | nil => rfl
  | cons kv rest ih =>
    obtain ⟨k0, v0⟩ := kv
    rw [eraseA_cons]
    by_cases h0 : k0 = k
    · rw [if_pos h0]
      rw [ih]
      have hk0 : k0 ≠ k' := h0 ▸ h
      rw [lookupA, if_neg hk0]
    · rw [if_neg h0]
      by_cases h1 : k0 = k'
      · rw [lookupA, if_pos h1, lookupA, if_pos h1]
      · rw [lookupA, if_neg h1, lookupA, if_neg h1, ih]

theorem lookupA_mem {α : Type} (m : List (Str × α)) (k : Str) (v : α)
    (h : lookupA m k = some v) : (k, v) ∈ m := by
  induction m with
  | nil => exact absurd h (by rw [lookupA]; simp)
  | cons kv rest ih =>
    obtain ⟨k0, v0⟩ := kv
    by_cases h0 : k0 = k
    · subst h0
      rw [lookupA, if_pos rfl] at h
      injection h with hv
      subst hv
      exact List.mem_cons_self _ _
    · rw [lookupA, if_neg h0] at h
      exact List.mem_cons_of_mem _ (ih h)

theorem lookupA_none_not_mem {α : Type} (m : List (Str × α)) (k : Str)
    (h : lookupA m k = none) : ∀ v, (k, v) ∉ m := by
  induction m with
  | nil => simp
  | cons kv rest ih =>
    obtain ⟨k0, v0⟩ := kv
    by_cases h0 : k0 = k
    · subst h0
      simp [lookupA] at h
    · simp [lookupA, h0] at h
      intro v hmem
      rcases List.mem_cons.mp hmem with heq | hmem'
      · exact h0 (by injection heq with h1 _; exact h1.symm)
      · exact ih h v hmem'

theorem setA_of_none {α : Type} (m : List (Str × α)) (k : Str) (v : α)
    (h : lookupA m k = none) : setA m k v = m ++ [(k, v)] := by
  induction m with
  | nil => rfl
  | cons kv rest ih =>
    obtain ⟨k0, v0⟩ := kv
    by_cases h0 : k0 = k
    · subst h0
      simp [lookupA] at h
    · simp [lookupA, h0] at h
      simp [setA, h0, ih h]

theorem lookupA_append {α : Type} (m m2 : List (Str × α)) (k : Str) :
    lookupA (m ++ m2) k =
      match lookupA m k with
      | some v => some v
      | none => lookupA m2 k := by
  induction m with
  | nil => simp [lookupA]
  | cons kv rest ih =>
    obtain ⟨k0, v0⟩ := kv
    by_cases h0 : k0 = k
    · simp [lookupA, h0]
    · simp [lookupA, h0, ih]

theorem eraseA_of_none {α : Type} (m : List (Str × α)) (k : Str)
    (h : lookupA m k = none) : eraseA m k = m := by
  induction m with
  | nil => rfl
  | cons kv rest ih =>
    obtain ⟨k0, v0⟩ := kv
    by_cases h0 : k0 = k
    · subst h0
      simp [lookupA] at h
    · rw [lookupA, if_neg h0] at h
      rw [eraseA_cons, if_neg h0, ih h]

theorem nodupKeys_lookupA_of_mem {α : Type} (m : List (Str × α)) (k : Str) (v : α)
    (hnd : nodupKeys m = true) (hmem : (k, v) ∈ m) : lookupA m k = some v := by
  induction m with
  | nil => simp at hmem
  | cons kv rest ih =>
    obtain ⟨k0, v0⟩ := kv
    simp only [nodupKeys, Bool.and_eq_true, Bool.not_eq_true'] at hnd
    rcases List.mem_cons.mp hmem with heq | hmem'
    · injection heq with h1 h2
      subst h1
      subst h2
      simp [lookupA]
    · have hk0 : k0 ≠ k := by
        intro hcontra
        subst hcontra
        have : rest.any (fun kv => kv.1 = k0) = true :=
          List.any_eq_true.mpr ⟨(k0, v), hmem', by simp⟩
        rw [this] at hnd
        exact absurd hnd.1 (by simp)
      simp [lookupA, hk0, ih hnd.2 hmem']

theorem not_mem_of_contains_false (s : Str) (c : Char) (h : s.contains c = false) :
    c ∉ s := by
  induction s with
  | nil => simp
  | cons a rest ih =>
    simp only [List.contains_cons, Bool.or_eq_false_iff] at h
    intro hmem
    rcases List.mem_cons.mp hmem with heq | hmem'
    · subst heq
      simp at h
    · exact ih h.2 hmem'

theorem encFree_spec (c : Char) (x : Val) (s : Str)
    (henc : encodeUndefined x = .ok s) (h : encFree c x = true) : c ∉ s := by
  unfold encFree at h
  rw [henc] at h
  exact not_mem_of_contains_false s c (by simpa using h)

/-- `decodeUndefined` on a non-`Option` type shape is `decodePrimitive`. -/
theorem decodeUndefined_nonopt (t : Ty) (ht : primShape t = true) (cur : Val) (s : Str) :
    decodeUndefined t cur s = decodePrimitive t cur s := by
  cases t with
  | topt te => simp [primShape] at ht
  | tbool => rw [decodeUndefined]
  | tint w => rw [decodeUndefined]
  | tuint w => rw [decodeUndefined]
  | tstr => rw [decodeUndefined]
  | tarr n te => rw [decodeUndefined]
  | tslice te => rw [decodeUndefined]
  | tmap te => rw [decodeUndefined]
  | tptr te => rw [decodeUndefined]

/-- `encodeUndefined` on a non-`Option` value is `encodePrimitive`. -/
theorem encodeUndefined_not_opt (v : Val) (h : ∀ b w, v ≠ .vopt b w) :
    encodeUndefined v = encodePrimitive v := by
  cases v with
  | vopt b w => exact absurd rfl (h b w)
  | vbool b => rw [encodeUndefined]; simp
  | vint n => rw [encodeUndefined]; simp
  | vuint n => rw [encodeUndefined]; simp
  | vstr s => rw [encodeUndefined]; simp
  | varr xs => rw [encodeUndefined]; simp
  | vslice xs => rw [encodeUndefined]; simp
  | vmap es => rw [encodeUndefined]; simp
  | vptr p => rw [encodeUndefined]; simp

theorem elems_roundtrip (te : Ty)
    (ih : ∀ v, faithful te v = true →
      ∃ s, encodeUndefined v = .ok s ∧
        decodeUndefined te (zeroVal te) s = .ok v ∧ decodeUndefined te v s = .ok v) :
    ∀ xs, faithfulElems te xs = true →
      ∃ parts, encodeElems xs = .ok parts ∧ parts.length = xs.length ∧
        (∀ p ∈ parts, (',' : Char) ∉ p) ∧
        decodeElems te (List.replicate parts.length (zeroVal te)) parts = .ok xs ∧
        decodeElems te xs parts = .ok xs := by
  intro xs
  induction xs with
  | nil =>
    intro _
    exact ⟨[], by rw [encodeElems], rfl, by simp, by rw [decodeElems], by rw [decodeElems]⟩
  | cons x rest ihl =>
    intro hf
    rw [faithfulElems] at hf
    simp only [Bool.and_eq_true] at hf
    obtain ⟨⟨hfx, hfree⟩, hfrest⟩ := hf
    obtain ⟨sx, hencx, hdecz, hdecs⟩ := ih x hfx
    obtain ⟨parts, hencrest, hlen, hpfree, hdz, hds⟩ := ihl hfrest
    refine ⟨sx :: parts, ?_, by simp [hlen], ?_, ?_, ?_⟩
    · rw [encodeElems, hencx, hencrest]
    · intro p hp
      rcases List.mem_cons.mp hp with heq | hmem
      · subst heq
        exact encFree_spec ',' x p hencx hfree
      · exact hpfree p hmem
    · rw [List.length_cons, List.replicate_succ, decodeElems, hdecz, hdz]
    · rw [decodeElems, hdecs, hds]

theorem entries_roundtrip (te : Ty)
    (ih : ∀ v, faithful te v = true →
      ∃ s, encodeUndefined v = .ok s ∧
        decodeUndefined te (zeroVal te) s = .ok v ∧ decodeUndefined te v s = .ok v) :
    ∀ es, faithfulEntries te es = true → nodupKeys es = true →
      ∃ parts, encodeEntries es = .ok parts ∧ parts.length = es.length ∧
        (∀ p ∈ parts, (',' : Char) ∉ p) ∧
        ∀ mp, (∀ kv ∈ es, lookupA mp kv.1 = none) →
          decodeMapItems te mp parts = .ok (mp ++ es) := by
  intro es
  induction es with
  | nil =>
    intro _ _
    refine ⟨[], by rw [encodeEntries], rfl, by simp, fun mp _ => ?_⟩
    rw [decodeMapItems]
    simp
  | cons kv rest ihl =>
    obtain ⟨k, v0⟩ := kv
    intro hf hnd
    rw [faithfulEntries] at hf
    simp only [Bool.and_eq_true, Bool.not_eq_true'] at hf
    obtain ⟨⟨⟨⟨⟨hkc, hkcol⟩, hfv⟩, hvc⟩, hvcol⟩, hfrest⟩ := hf
    simp only [nodupKeys, Bool.and_eq_true, Bool.not_eq_true'] at hnd
    obtain ⟨hknotin, hndrest⟩ := hnd
    obtain ⟨sv, hencv, hdecz, _⟩ := ih v0 hfv
    obtain ⟨parts, hencrest, hlen, hpfree, hdec⟩ := ihl hfrest hndrest
    have hkc' : (',' : Char) ∉ k := not_mem_of_contains_false k ',' hkc
    have hkcol' : (':' : Char) ∉ k := not_mem_of_contains_false k ':' hkcol
    have hvc' : (',' : Char) ∉ sv := encFree_spec ',' v0 sv hencv hvc
    have hvcol' : (':' : Char) ∉ sv := encFree_spec ':' v0 sv hencv hvcol
    refine ⟨(k ++ ':' :: sv) :: parts, ?_, by simp [hlen], ?_, ?_⟩
    · rw [encodeEntries, hencv, hencrest]
    · intro p hp
      rcases List.mem_cons.mp hp with heq | hmem
      · subst heq
        intro hmem'
        rcases List.mem_append.mp hmem' with h1 | h2
        · exact hkc' h1
        · rcases List.mem_cons.mp h2 with h3 | h4
          · exact absurd h3 (by decide)
          · exact hvc' h4
      · exact hpfree p hmem
    · intro mp hmp
      have hsplit : splitChar ':' (k ++ ':' :: sv) = [k, sv] := by
        rw [splitChar_append_part ':' k hkcol', splitChar_no_sep ':' sv hvcol']
      rw [decodeMapItems, hsplit]
      simp only []
      rw [hdecz]
      have hlook : lookupA mp k = none := hmp (k, v0) (by simp)
      show decodeMapItems te (setA mp k v0) parts = _
      rw [setA_of_none mp k v0 hlook]
      have hmprest : ∀ kv ∈ rest, lookupA (mp ++ [(k, v0)]) kv.1 = none := by
        intro kv hkv
        rw [lookupA_append]
        rw [hmp kv (by simp [hkv])]
        have hne : kv.1 ≠ k := by
          intro hcontra
          have : rest.any (fun kv2 => kv2.1 = k) = true :=
            List.any_eq_true.mpr ⟨kv, hkv, by simp [hcontra]⟩
          rw [hknotin] at this
          exact absurd this (by simp)
        rw [lookupA, if_neg (Ne.symm hne), lookupA]
      rw [hdec (mp ++ [(k, v0)]) hmprest]
      simp

/-- Conversion-layer round trip: a faithful value encodes successfully, and
the image decodes back to exactly that value, both into a fresh zero slot
and onto the (already equal) live slot. -/
theorem conv_roundtrip (t : Ty) : ∀ v : Val, faithful t v = true →
    ∃ s, encodeUndefined v = .ok s ∧
      decodeUndefined t (zeroVal t) s = .ok v ∧
      decodeUndefined t v s = .ok v := by
  induction t with
  | tbool =>
    intro v hf
    rw [faithful.eq_def] at hf
    cases v with
    | vbool b =>
      refine ⟨formatBool b, ?_, ?_, ?_⟩
      · rw [encodeUndefined_not_opt _ (by simp), encodePrimitive]
      · rw [decodeUndefined, decodePrimitive]
        unfold assignToBool
        rw [parseBool_formatBool]
      · rw [decodeUndefined, decodePrimitive]
        unfold assignToBool
        rw [parseBool_formatBool]
    | vint n => simp at hf
    | vuint n => simp at hf
    | vstr s => simp at hf
    | varr xs => simp at hf
    | vslice xs => simp at hf
    | vmap es => simp at hf
    | vptr p => simp at hf
    | vopt b w => simp at hf
  | tint w =>
    intro v hf
    rw [faithful.eq_def] at hf
    cases v with
    | vint n =>
      simp only [decide_eq_true_eq] at hf
      refine ⟨formatInt n, ?_, ?_, ?_⟩
      · rw [encodeUndefined_not_opt _ (by simp), encodePrimitive]
      · rw [decodeUndefined, decodePrimitive]
        unfold assignToInt
        rw [parseInt_formatInt n w hf.1 hf.2]
      · rw [decodeUndefined, decodePrimitive]
        unfold assignToInt
        rw [parseInt_formatInt n w hf.1 hf.2]
    | vbool b => simp at hf
    | vuint n => simp at hf
    | vstr s => simp at hf
    | varr xs => simp at hf
    | vslice xs => simp at hf
    | vmap es => simp at hf
    | vptr p => simp at hf
    | vopt b w' => simp at hf
  | tuint w =>
    intro v hf
    rw [faithful.eq_def] at hf
    cases v with
    | vuint n =>
      simp only [decide_eq_true_eq] at hf
      refine ⟨formatNat n, ?_, ?_, ?_⟩
      · rw [encodeUndefined_not_opt _ (by simp), encodePrimitive]
      · rw [decodeUndefined, decodePrimitive]
        unfold assignToUInt parseUint
        rw [parseNat_formatNat]
        simp only [hf, if_true]
      · rw [decodeUndefined, decodePrimitive]
        unfold assignToUInt parseUint
        rw [parseNat_formatNat]
        simp only [hf, if_true]
    | vbool b => simp at hf
    | vint n => simp at hf
    | vstr s => simp at hf
    | varr xs => simp at hf
    | vslice xs => simp at hf
    | vmap es => simp at hf
    | vptr p => simp at hf
    | vopt b w' => simp at hf
  | tstr =>
    intro v hf
    rw [faithful.eq_def] at hf
    cases v with
    | vstr s =>
      refine ⟨s, ?_, ?_, ?_⟩
      · rw [encodeUndefined_not_opt _ (by simp), encodePrimitive]
      · rw [decodeUndefined, decodePrimitive]
      · rw [decodeUndefined, decodePrimitive]
    | vbool b => simp at hf
    | vint n => simp at hf
    | vuint n => simp at hf
    | varr xs => simp at hf
    | vslice xs => simp at hf
    | vmap es => simp at hf
    | vptr p => simp at hf
    | vopt b w' => simp at hf
  | tarr n te ih =>
    intro v hf
    rw [faithful.eq_def] at hf
    cases v with
    | varr xs =>
      simp only [Bool.and_eq_true, decide_eq_true_eq] at hf
      obtain ⟨⟨hlen, hn⟩, helems⟩ := hf
      obtain ⟨parts, hencE, hplen, hpfree, hdz, hds⟩ := elems_roundtrip te ih xs helems
      have hpne : parts ≠ [] := by
        intro hcontra
        rw [hcontra] at hplen
        simp at hplen
        omega
      have hsplit : splitChar ',' (joinChar ',' parts) = parts :=
        splitChar_joinChar ',' parts hpne hpfree
      have hpn : parts.length = n := hplen.trans hlen
      refine ⟨joinChar ',' parts, ?_, ?_, ?_⟩
      · rw [encodeUndefined_not_opt _ (by simp), encodePrimitive, assignArray, hencE]
        rfl
      · rw [show zeroVal (.tarr n te) = .varr (List.replicate n (zeroVal te)) from rfl]
        rw [decodeUndefined, decodePrimitive, assignToArray]
        simp only [hsplit]
        rw [if_neg (by omega)]
        rw [show List.replicate n (zeroVal te) = List.replicate parts.length (zeroVal te)
          from by rw [hpn]]
        rw [hdz]
      · rw [decodeUndefined, decodePrimitive, assignToArray]
        simp only [hsplit]
        rw [if_neg (by omega)]
        rw [hds]
    | vbool b => simp at hf
    | vint m => simp at hf
    | vuint m => simp at hf
    | vstr s => simp at hf
    | vslice xs => simp at hf
    | vmap es => simp at hf
    | vptr p => simp at hf
    | vopt b w' => simp at hf
  | tslice te ih =>
    intro v hf
    rw [faithful.eq_def] at hf
    cases v with
    | vslice xs =>
      simp only [Bool.and_eq_true, Bool.not_eq_true'] at hf
      obtain ⟨hne, helems⟩ := hf
      have hxne : xs ≠ [] := by
        intro hcontra
        rw [hcontra] at hne
        simp at hne
      obtain ⟨parts, hencE, hplen, hpfree, hdz, hds⟩ := elems_roundtrip te ih xs helems
      have hpne : parts ≠ [] := by
        intro hcontra
        rw [hcontra] at hplen
        exact hxne (List.eq_nil_of_length_eq_zero hplen.symm)
      have hsplit : splitChar ',' (joinChar ',' parts) = parts :=
        splitChar_joinChar ',' parts hpne hpfree
      have hmaprep : ∀ l : List Str, l.map (fun _ => zeroVal te) =
          List.replicate l.length (zeroVal te) := by
        intro l
        induction l with
        | nil => rfl
        | cons a as ihm => simp [ihm, List.replicate_succ]
      refine ⟨joinChar ',' parts, ?_, ?_, ?_⟩
      · rw [encodeUndefined_not_opt _ (by simp), encodePrimitive, assignArray, hencE]
        rfl
      · rw [decodeUndefined, decodePrimitive, assignToSlice]
        simp only [hsplit]
        rw [hmaprep, hdz]
      · rw [decodeUndefined, decodePrimitive, assignToSlice]
        simp only [hsplit]
        rw [hmaprep, hdz]
    | vbool b => simp at hf
    | vint m => simp at hf
    | vuint m => simp at hf
    | vstr s => simp at hf
    | varr xs => simp at hf
    | vmap es => simp at hf
    | vptr p => simp at hf
    | vopt b w' => simp at hf
  | tmap te ih =>
    intro v hf
    rw [faithful.eq_def] at hf
    cases v with
    | vmap es =>
      simp only [Bool.and_eq_true, Bool.not_eq_true'] at hf
      obtain ⟨⟨hne, hnd⟩, hentries⟩ := hf
      have hesne : es ≠ [] := by
        intro hcontra
        rw [hcontra] at hne
        simp at hne
      obtain ⟨parts, hencE, hplen, hpfree, hdecmp⟩ := entries_roundtrip te ih es hentries hnd
      have hpne : parts ≠ [] := by
        intro hcontra
        rw [hcontra] at hplen
        exact hesne (List.eq_nil_of_length_eq_zero hplen.symm)
      have hsplit : splitChar ',' (joinChar ',' parts) = parts :=
        splitChar_joinChar ',' parts hpne hpfree
      have hdec : decodeMapItems te [] parts = .ok es := by
        rw [hdecmp [] (fun kv _ => by rw [lookupA])]
        rfl
      refine ⟨joinChar ',' parts, ?_, ?_, ?_⟩
      · rw [encodeUndefined_not_opt _ (by simp), encodePrimitive, assignMap, hencE]
        rfl
      · rw [decodeUndefined, decodePrimitive, assignToMap]
        simp only [hsplit]
        rw [hdec]
      · rw [decodeUndefined, decodePrimitive, assignToMap]
        simp only [hsplit]
        rw [hdec]
    | vbool b => simp at hf
    | vint m => simp at hf
    | vuint m => simp at hf
    | vstr s => simp at hf
    | varr xs => simp at hf
    | vslice xs => simp at hf
    | vptr p => simp at hf
    | vopt b w' => simp at hf
  | tptr te ih =>
    intro v hf
    rw [faithful.eq_def] at hf
    cases v with
    | vptr p =>
      cases p with
      | none => simp at hf
      | some w =>
        simp only [Bool.and_eq_true] at hf
        obtain ⟨hprim, hfw⟩ := hf
        obtain ⟨sw, hencw, hdz, hds⟩ := ih w hfw
        refine ⟨sw, ?_, ?_, ?_⟩
        · rw [encodeUndefined_not_opt _ (by simp), encodePrimitive, hencw]
        · rw [show zeroVal (.tptr te) = Val.vptr none from rfl]
          rw [decodeUndefined, decodePrimitive, assignToPointer]
          rw [show pointeeOf te (Val.vptr none) = zeroVal te from rfl]
          rw [← decodeUndefined_nonopt te hprim, hdz]
        · rw [decodeUndefined, decodePrimitive, assignToPointer]
          rw [show pointeeOf te (Val.vptr (some w)) = w from rfl]
          rw [← decodeUndefined_nonopt te hprim, hds]
    | vbool b => simp at hf
    | vint m => simp at hf
    | vuint m => simp at hf
    | vstr s => simp at hf
    | varr xs => simp at hf
    | vslice xs => simp at hf
    | vmap es => simp at hf
    | vopt b w' => simp at hf
  | topt te ih =>
    intro v hf
    rw [faithful.eq_def] at hf
    cases v with
    | vopt b w =>
      cases b with
      | false => simp at hf
      | true =>
        obtain ⟨sw, hencw, hdz, hds⟩ := ih w (by simpa using hf)
        refine ⟨sw, ?_, ?_, ?_⟩
        · rw [encodeUndefined, encodeOption]
          simp only [if_true]
          exact hencw
        · rw [show zeroVal (.topt te) = Val.vopt false (zeroVal te) from rfl]
          rw [decodeUndefined, decodeOption, hdz]
        · rw [decodeUndefined, decodeOption, hds]
    | vbool b => simp at hf
    | vint m => simp at hf
    | vuint m => simp at hf
    | vstr s => simp at hf
    | varr xs => simp at hf
    | vslice xs => simp at hf
    | vmap es => simp at hf
    | vptr p => simp at hf

/-- A faithful value of non-`Option` shape is not an `Option` wrapper. -/
theorem faithful_shape_not_opt (t : Ty) (ht : primShape t = true) (v : Val)
    (hf : faithful t v = true) : ∀ b w, v ≠ .vopt b w := by
  intro b w hcontra
  subst hcontra
  cases t with
  | topt te => simp [primShape] at ht
  | tbool => rw [faithful.eq_def] at hf; simp at hf
  | tint w' => rw [faithful.eq_def] at hf; simp at hf
  | tuint w' => rw [faithful.eq_def] at hf; simp at hf
  | tstr => rw [faithful.eq_def] at hf; simp at hf
  | tarr n te => rw [faithful.eq_def] at hf; simp at hf
  | tslice te => rw [faithful.eq_def] at hf; simp at hf
  | tmap te => rw [faithful.eq_def] at hf; simp at hf
  | tptr te => rw [faithful.eq_def] at hf; simp at hf

/-- `conv_roundtrip` phrased with the `encodeOf` image. -/
theorem conv_roundtrip_encodeOf (t : Ty) (v : Val) (hf : faithful t v = true) :
    encodeUndefined v = .ok (encodeOf v) ∧
    decodeUndefined t (zeroVal t) (encodeOf v) = .ok v ∧
    decodeUndefined t v (encodeOf v) = .ok v := by
  obtain ⟨s, h1, h2, h3⟩ := conv_roundtrip t v hf
  have hs : encodeOf v = s := by unfold encodeOf; rw [h1]
  rw [hs]
  exact ⟨h1, h2, h3⟩

/-- A faithful value that `reflect.Value.IsZero` accepts is the zero value
of its type (only scalars and all-zero arrays qualify; empty composites,
nil pointers and absent options are not faithful). -/
theorem faithful_zero_eq (t : Ty) : ∀ v, faithful t v = true → isZero v = true →
    v = zeroVal t := by
  induction t with
  | tbool =>
    intro v hf hz
    cases v <;> (try (rw [faithful.eq_def] at hf; simp at hf))
    rename_i b
    rw [isZero] at hz
    simp at hz
    rw [hz]
    rfl
  | tint w =>
    intro v hf hz
    cases v <;> (try (rw [faithful.eq_def] at hf; simp at hf))
    rename_i n
    rw [isZero] at hz
    simp at hz
    rw [hz]
    rfl
  | tuint w =>
    intro v hf hz
    cases v <;> (try (rw [faithful.eq_def] at hf; simp at hf))
    rename_i n
    rw [isZero] at hz
    simp at hz
    rw [hz]
    rfl
  | tstr =>
    intro v hf hz
    cases v <;> (try (rw [faithful.eq_def] at hf; simp at hf))
    rename_i s
    rw [isZero] at hz
    simp [List.isEmpty_iff] at hz
    rw [hz]
    rfl
  | tarr n te ih =>
    intro v hf hz
    cases v <;> (try (rw [faithful.eq_def] at hf; simp at hf))
    rename_i xs
    obtain ⟨⟨hlen, _⟩, helems⟩ := hf
    rw [isZero] at hz
    have hrep : ∀ ys, faithfulElems te ys = true → isZeroList ys = true →
        ys = List.replicate ys.length (zeroVal te) := by
      intro ys
      induction ys with
      | nil => intro _ _; rfl
      | cons y ys' ihy =>
        intro hfe hze
        rw [faithfulElems] at hfe
        rw [isZeroList] at hze
        simp only [Bool.and_eq_true] at hfe hze
        rw [List.length_cons, List.replicate_succ]
        rw [← ihy hfe.2 hze.2, ih y hfe.1.1 hze.1]
    rw [show zeroVal (.tarr n te) = .varr (List.replicate n (zeroVal te)) from rfl]
    rw [hrep xs helems hz, hlen]
  | tslice te ih =>
    intro v hf hz
    cases v <;> (try (rw [faithful.eq_def] at hf; simp at hf))
    rename_i xs
    obtain ⟨hne, _⟩ := hf
    rw [isZero] at hz
    rw [List.isEmpty_iff] at hz
    simp [hz] at hne
  | tmap te ih =>
    intro v hf hz
    cases v <;> (try (rw [faithful.eq_def] at hf; simp at hf))
    rename_i es
    obtain ⟨⟨hne, _⟩, _⟩ := hf
    rw [isZero] at hz
    rw [List.isEmpty_iff] at hz
    simp [hz] at hne
  | tptr te ih =>
    intro v hf hz
    cases v <;> (try (rw [faithful.eq_def] at hf; simp at hf))
    rename_i p
    cases p with
    | none => simp at hf
    | some w =>
      rw [isZero] at hz
      simp at hz
  | topt te ih =>
    intro v hf hz
    cases v <;> (try (rw [faithful.eq_def] at hf; simp at hf))
    rename_i b w
    cases b with
    | false => simp at hf
    | true =>
      rw [isZero] at hz
      simp at hz

theorem mem_setA {α : Type} (m : List (Str × α)) (k : Str) (v : α) :
    ∀ kv ∈ setA m k v, kv = (k, v) ∨ kv ∈ m := by
  induction m with
  | nil => simp [setA]
  | cons kv0 rest ih =>
    obtain ⟨k0, v0⟩ := kv0
    intro kv hkv
    by_cases h0 : k0 = k
    · rw [setA, if_pos h0] at hkv
      rcases List.mem_cons.mp hkv with heq | hmem
      · exact Or.inl heq
      · exact Or.inr (List.mem_cons_of_mem _ hmem)
    · rw [setA, if_neg h0] at hkv
      rcases List.mem_cons.mp hkv with heq | hmem
      · exact Or.inr (heq ▸ List.mem_cons_self _ _)
      · rcases ih kv hmem with h | h
        · exact Or.inl h
        · exact Or.inr (List.mem_cons_of_mem _ h)

theorem nodupKeys_setA {α : Type} (m : List (Str × α)) (k : Str) (v : α)
    (h : nodupKeys m = true) : nodupKeys (setA m k v) = true := by
  induction m with
  | nil => simp [setA, nodupKeys]
  | cons kv0 rest ih =>
    obtain ⟨k0, v0⟩ := kv0
    rw [nodupKeys] at h
    simp only [Bool.and_eq_true, Bool.not_eq_true'] at h
    obtain ⟨hnotin, hrest⟩ := h
    by_cases h0 : k0 = k
    · rw [setA, if_pos h0, nodupKeys]
      subst h0
      simp only [Bool.and_eq_true, Bool.not_eq_true']
      exact ⟨hnotin, hrest⟩
    · rw [setA, if_neg h0, nodupKeys]
      simp only [Bool.and_eq_true, Bool.not_eq_true']
      refine ⟨?_, ih hrest⟩
      rw [List.any_eq_false]
      intro kv hkv
      rcases mem_setA rest k v kv hkv with heq | hmem
      · subst heq
        simp [Ne.symm h0]
      · rw [List.any_eq_false] at hnotin
        exact hnotin kv hmem

theorem nodupKeys_eraseA {α : Type} (m : List (Str × α)) (k : Str)
    (h : nodupKeys m = true) : nodupKeys (eraseA m k) = true := by
  induction m with
  | nil => simp [eraseA, nodupKeys]
  | cons kv0 rest ih =>
    obtain ⟨k0, v0⟩ := kv0
    rw [nodupKeys] at h
    simp only [Bool.and_eq_true, Bool.not_eq_true'] at h
    obtain ⟨hnotin, hrest⟩ := h
    rw [eraseA_cons]
    by_cases h0 : k0 = k
    · rw [if_pos h0]
      exact ih hrest
    · rw [if_neg h0, nodupKeys]
      simp only [Bool.and_eq_true, Bool.not_eq_true']
      refine ⟨?_, ih hrest⟩
      rw [List.any_eq_false]
      intro kv hkv
      have hkvm : kv ∈ rest := by
        have : kv ∈ List.filter (fun kv2 => kv2.1 ≠ k) rest := hkv
        exact List.mem_of_mem_filter this
      rw [List.any_eq_false] at hnotin
      exact hnotin kv hkvm

/-! ## C1: record-level round trip

The claim's quantification — "every supported field/tag combination" — is
rendered as the `goodField` well-formedness predicate: bidirectional
non-inline fields with the default (shape-dispatch) encoding, sourced in
one of the four metadata buckets, holding a `faithful` value, where
name/namespace fields are of primitive (non-`Option`) shape (those buckets
go through `encodePrimitive`/`decodePrimitive`, which reject `Option`
wrappers) and never `omitempty` (the name/namespace strings cannot express
key deletion); plus pairwise distinct targets, since fields sharing a
bucket key overwrite each other. -/

def goodTag (tag : ParsedTag) : Prop :=
  tag.dir = .inoutDir ∧ tag.inline = false ∧ tag.enc = .undef ∧
  (tag.source = .annot ∨ tag.source = .label ∨ tag.source = .name ∨ tag.source = .nspace) ∧
  ((tag.source = .name ∨ tag.source = .nspace) → tag.omitempty = false)

def goodField (g : ParsedTag × Ty × Val) : Prop :=
  goodTag g.1 ∧ faithful g.2.1 g.2.2 = true ∧
  ((g.1.source = .name ∨ g.1.source = .nspace) → primShape g.2.1 = true)

/-- Two tags never write to (or shadow reads of) the same metadata slot. -/
def distinctTargets (a b : ParsedTag) : Prop :=
  ¬(a.source = .annot ∧ b.source = .annot ∧ a.value = b.value) ∧
  ¬(a.source = .label ∧ b.source = .label ∧ a.value = b.value) ∧
  ¬(a.source = .name ∧ b.source = .name) ∧
  ¬(a.source = .nspace ∧ b.source = .nspace)

theorem distinctTargets_symm (a b : ParsedTag) (h : distinctTargets a b) :
    distinctTargets b a := by
  obtain ⟨h1, h2, h3, h4⟩ := h
  refine ⟨?_, ?_, ?_, ?_⟩
  · intro ⟨x, y, z⟩; exact h1 ⟨y, x, z.symm⟩
  · intro ⟨x, y, z⟩; exact h2 ⟨y, x, z.symm⟩
  · intro ⟨x, y⟩; exact h3 ⟨y, x⟩
  · intro ⟨x, y⟩; exact h4 ⟨y, x⟩

/-- The `structField` the encoder's stack holds for a modelled field. -/
def toSF (g : ParsedTag × Ty × Val) : StructField := ⟨g.2.2, some g.1⟩

/-- The metadata state after `encodeField` processes one good field. -/
def metaAfter (g : ParsedTag × Ty × Val) (meta : Meta) : Meta :=
  if g.1.omitempty && isZero g.2.2 then
    match g.1.source with
    | .label => {meta with labels := eraseA meta.labels g.1.value}
    | .annot => {meta with annotations := eraseA meta.annotations g.1.value}
    | _ => meta
  else
    match g.1.source with
    | .name => {meta with name := encodeOf g.2.2}
    | .nspace => {meta with nspace := encodeOf g.2.2}
    | .label => {meta with labels := setA meta.labels g.1.value (encodeOf g.2.2)}
    | .annot => {meta with annotations := setA meta.annotations g.1.value (encodeOf g.2.2)}
    | .undef => meta

/-- On a good field, `encodeField` succeeds and its effect is `metaAfter`. -/
theorem encodeField_good (g : ParsedTag × Ty × Val) (meta : Meta) (hg : goodField g) :
    encodeField meta (toSF g) = .ok (metaAfter g meta) := by
  obtain ⟨tag, t, v⟩ := g
  obtain ⟨⟨hdir, hinl, henc, hsrc, homit⟩, hfa, hprim⟩ := hg
  simp only at hdir hinl henc hsrc homit hfa hprim
  have henc1 : encodeUndefined v = .ok (encodeOf v) :=
    (conv_roundtrip_encodeOf t v hfa).1
  have hskip : ¬(tag.dir = Dir.inDir ∨ tag.inline = true) := by
    rw [hdir, hinl]
    simp
  simp only [encodeField, toSF, metaAfter]
  rw [if_neg hskip]
  by_cases hoz : (tag.omitempty && isZero v) = true
  · rw [if_pos hoz, if_pos hoz]
    rcases hsrc with h | h | h | h <;> rw [h]
  · rw [if_neg hoz, if_neg hoz]
    rcases hsrc with h | h | h | h <;> rw [h]
    · show (encodeWith v tag.enc meta).map _ = _
      rw [henc]
      simp only [encodeWith]
      rw [henc1]
      rfl
    · show (encodeWith v tag.enc meta).map _ = _
      rw [henc]
      simp only [encodeWith]
      rw [henc1]
      rfl
    · show (encodePrimitive v).map _ = _
      have hnop : encodePrimitive v = .ok (encodeOf v) := by
        rw [← encodeUndefined_not_opt v
          (faithful_shape_not_opt t (hprim (Or.inl (h ▸ rfl))) v hfa)]
        exact henc1
      rw [hnop]
      rfl
    · show (encodePrimitive v).map _ = _
      have hnop : encodePrimitive v = .ok (encodeOf v) := by
        rw [← encodeUndefined_not_opt v
          (faithful_shape_not_opt t (hprim (Or.inr (h ▸ rfl))) v hfa)]
        exact henc1
      rw [hnop]
      rfl

theorem metaAfter_annots (g : ParsedTag × Ty × Val) (meta : Meta) :
    (metaAfter g meta).annotations =
      if g.1.source = .annot then
        if g.1.omitempty && isZero g.2.2 then eraseA meta.annotations g.1.value
        else setA meta.annotations g.1.value (encodeOf g.2.2)
      else meta.annotations := by
  rw [metaAfter]
  by_cases hoz : (g.1.omitempty && isZero g.2.2) = true
  · rw [if_pos hoz]
    cases hs : g.1.source <;> simp [hoz]
  · rw [if_neg hoz]
    cases hs : g.1.source <;> simp [hoz]

theorem metaAfter_labels (g : ParsedTag × Ty × Val) (meta : Meta) :
    (metaAfter g meta).labels =
      if g.1.source = .label then
        if g.1.omitempty && isZero g.2.2 then eraseA meta.labels g.1.value
        else setA meta.labels g.1.value (encodeOf g.2.2)
      else meta.labels := by
  rw [metaAfter]
  by_cases hoz : (g.1.omitempty && isZero g.2.2) = true
  · rw [if_pos hoz]
    cases hs : g.1.source <;> simp [hoz]
  · rw [if_neg hoz]
    cases hs : g.1.source <;> simp [hoz]

theorem metaAfter_name_good (g : ParsedTag × Ty × Val) (meta : Meta) (hg : goodField g) :
    (metaAfter g meta).name =
      if g.1.source = .name then encodeOf g.2.2 else meta.name := by
  obtain ⟨⟨_, _, _, _, homit⟩, _, _⟩ := hg
  rw [metaAfter]
  by_cases hoz : (g.1.omitempty && isZero g.2.2) = true
  · rw [if_pos hoz]
    have hns : g.1.source ≠ .name := by
      intro h
      rw [homit (Or.inl h)] at hoz
      simp at hoz
    rw [if_neg hns]
    cases hs : g.1.source <;> simp
  · rw [if_neg hoz]
    cases hs : g.1.source <;> simp

theorem metaAfter_nspace_good (g : ParsedTag × Ty × Val) (meta : Meta) (hg : goodField g) :
    (metaAfter g meta).nspace =
      if g.1.source = .nspace then encodeOf g.2.2 else meta.nspace := by
  obtain ⟨⟨_, _, _, _, homit⟩, _, _⟩ := hg
  rw [metaAfter]
  by_cases hoz : (g.1.omitempty && isZero g.2.2) = true
  · rw [if_pos hoz]
    have hns : g.1.source ≠ .nspace := by
      intro h
      rw [homit (Or.inr h)] at hoz
      simp at hoz
    rw [if_neg hns]
    cases hs : g.1.source <;> simp
  · rw [if_neg hoz]
    cases hs : g.1.source <;> simp

/-- The encoder work loop over a list of good, pairwise-distinct fields:
it succeeds, each annotation/label field's key holds its encoded image
(or was deleted, for an omitted zero), unclaimed keys are untouched, the
name/namespace strings hold the unique name/namespace field's image, and
key uniqueness of the maps is preserved. -/
theorem encodeLoop_spec (gs : List (ParsedTag × Ty × Val)) :
    ∀ (meta : Meta), (∀ g ∈ gs, goodField g) →
      List.Pairwise (fun a b => distinctTargets a.1 b.1) gs →
      ∃ m2, encodeLoopRev meta (gs.map toSF) = .ok m2 ∧
        (∀ g ∈ gs, g.1.source = .annot → (g.1.omitempty && isZero g.2.2) = false →
          lookupA m2.annotations g.1.value = some (encodeOf g.2.2)) ∧
        (∀ g ∈ gs, g.1.source = .annot → (g.1.omitempty && isZero g.2.2) = true →
          lookupA m2.annotations g.1.value = none) ∧
        (∀ k, (∀ g ∈ gs, g.1.source = .annot → g.1.value ≠ k) →
          lookupA m2.annotations k = lookupA meta.annotations k) ∧
        (∀ g ∈ gs, g.1.source = .label → (g.1.omitempty && isZero g.2.2) = false →
          lookupA m2.labels g.1.value = some (encodeOf g.2.2)) ∧
        (∀ g ∈ gs, g.1.source = .label → (g.1.omitempty && isZero g.2.2) = true →
          lookupA m2.labels g.1.value = none) ∧
        (∀ k, (∀ g ∈ gs, g.1.source = .label → g.1.value ≠ k) →
          lookupA m2.labels k = lookupA meta.labels k) ∧
        (∀ g ∈ gs, g.1.source = .name → m2.name = encodeOf g.2.2) ∧
        ((∀ g ∈ gs, g.1.source ≠ .name) → m2.name = meta.name) ∧
        (∀ g ∈ gs, g.1.source = .nspace → m2.nspace = encodeOf g.2.2) ∧
        ((∀ g ∈ gs, g.1.source ≠ .nspace) → m2.nspace = meta.nspace) ∧
        (nodupKeys meta.annotations = true → nodupKeys m2.annotations = true) ∧
        (nodupKeys meta.labels = true → nodupKeys m2.labels = true) := by
  induction gs with
  | nil =>
    intro meta _ _
    exact ⟨meta, rfl, by simp, by simp, fun k _ => rfl, by simp, by simp,
      fun k _ => rfl, by simp, fun _ => rfl, by simp, fun _ => rfl,
      fun h => h, fun h => h⟩
  | cons g0 rest ih =>
    intro meta hgood hpw
    have hg0 : goodField g0 := hgood g0 (List.mem_cons_self g0 rest)
    have hrest : ∀ g ∈ rest, goodField g :=
      fun g h => hgood g (List.mem_cons_of_mem _ h)
    rw [List.pairwise_cons] at hpw
    obtain ⟨hdist0, hpwrest⟩ := hpw
    obtain ⟨m2, hloop, A1, A2, A0, L1, L2, L0, N1, N0, S1, S0, ND1, ND2⟩ :=
      ih (metaAfter g0 meta) hrest hpwrest
    have hannots := metaAfter_annots g0 meta
    have hlabels := metaAfter_labels g0 meta
    have hname := metaAfter_name_good g0 meta hg0
    have hnspace := metaAfter_nspace_good g0 meta hg0
    refine ⟨m2, ?_, ?_, ?_, ?_, ?_, ?_, ?_, ?_, ?_, ?_, ?_, ?_, ?_⟩
    · rw [List.map_cons, encodeLoopRev, encodeField_good g0 meta hg0]
      exact hloop
    · intro g hmem hs hnz
      rcases List.mem_cons.mp hmem with heq | hmem'
      · subst heq
        have hk := A0 g.1.value
          (fun b hb hbs hveq => (hdist0 b hb).1 ⟨hs, hbs, hveq.symm⟩)
        have hnz' : ¬((g.1.omitempty && isZero g.2.2) = true) := by
          rw [hnz]; simp
        rw [hk, hannots, if_pos hs, if_neg hnz']
        exact lookupA_setA meta.annotations g.1.value (encodeOf g.2.2)
      · exact A1 g hmem' hs hnz
    · intro g hmem hs hoz
      rcases List.mem_cons.mp hmem with heq | hmem'
      · subst heq
        have hk := A0 g.1.value
          (fun b hb hbs hveq => (hdist0 b hb).1 ⟨hs, hbs, hveq.symm⟩)
        rw [hk, hannots, if_pos hs, if_pos hoz]
        exact lookupA_eraseA meta.annotations g.1.value
      · exact A2 g hmem' hs hoz
    · intro k hnone
      have h1 := A0 k (fun b hb hbs => hnone b (List.mem_cons_of_mem _ hb) hbs)
      rw [h1, hannots]
      by_cases hs : g0.1.source = .annot
      · rw [if_pos hs]
        have hkne : g0.1.value ≠ k := hnone g0 (List.mem_cons_self _ _) hs
        by_cases hoz : (g0.1.omitempty && isZero g0.2.2) = true
        · rw [if_pos hoz]
          exact lookupA_eraseA_ne meta.annotations g0.1.value k hkne
        · rw [if_neg hoz]
          exact lookupA_setA_ne meta.annotations g0.1.value k (encodeOf g0.2.2) hkne
      · rw [if_neg hs]
    · intro g hmem hs hnz
      rcases List.mem_cons.mp hmem with heq | hmem'
      · subst heq
        have hk := L0 g.1.value
          (fun b hb hbs hveq => (hdist0 b hb).2.1 ⟨hs, hbs, hveq.symm⟩)
        have hnz' : ¬((g.1.omitempty && isZero g.2.2) = true) := by
          rw [hnz]; simp
        rw [hk, hlabels, if_pos hs, if_neg hnz']
        exact lookupA_setA meta.labels g.1.value (encodeOf g.2.2)
      · exact L1 g hmem' hs hnz
    · intro g hmem hs hoz
      rcases List.mem_cons.mp hmem with heq | hmem'
      · subst heq
        have hk := L0 g.1.value
          (fun b hb hbs hveq => (hdist0 b hb).2.1 ⟨hs, hbs, hveq.symm⟩)
        rw [hk, hlabels, if_pos hs, if_pos hoz]
        exact lookupA_eraseA meta.labels g.1.value
      · exact L2 g hmem' hs hoz
    · intro k hnone
      have h1 := L0 k (fun b hb hbs => hnone b (List.mem_cons_of_mem _ hb) hbs)
      rw [h1, hlabels]
      by_cases hs : g0.1.source = .label
      · rw [if_pos hs]
        have hkne : g0.1.value ≠ k := hnone g0 (List.mem_cons_self _ _) hs
        by_cases hoz : (g0.1.omitempty && isZero g0.2.2) = true
        · rw [if_pos hoz]
          exact lookupA_eraseA_ne meta.labels g0.1.value k hkne
        · rw [if_neg hoz]
          exact lookupA_setA_ne meta.labels g0.1.value k (encodeOf g0.2.2) hkne
      · rw [if_neg hs]
    · intro g hmem hs
      rcases List.mem_cons.mp hmem with heq | hmem'
      · subst heq
        have h1 := N0 (fun b hb hbs => (hdist0 b hb).2.2.1 ⟨hs, hbs⟩)
        rw [h1, hname, if_pos hs]
      · exact N1 g hmem' hs
    · intro hnone
      rw [N0 (fun b hb => hnone b (List.mem_cons_of_mem _ hb)), hname,
        if_neg (hnone g0 (List.mem_cons_self _ _))]
    · intro g hmem hs
      rcases List.mem_cons.mp hmem with heq | hmem'
      · subst heq
        have h1 := S0 (fun b hb hbs => (hdist0 b hb).2.2.2 ⟨hs, hbs⟩)
        rw [h1, hnspace, if_pos hs]
      · exact S1 g hmem' hs
    · intro hnone
      rw [S0 (fun b hb => hnone b (List.mem_cons_of_mem _ hb)), hnspace,
        if_neg (hnone g0 (List.mem_cons_self _ _))]
    · intro hnd
      apply ND1
      rw [hannots]
      by_cases hs : g0.1.source = .annot
      · rw [if_pos hs]
        by_cases hoz : (g0.1.omitempty && isZero g0.2.2) = true
        · rw [if_pos hoz]
          exact nodupKeys_eraseA meta.annotations g0.1.value hnd
        · rw [if_neg hoz]
          exact nodupKeys_setA meta.annotations g0.1.value (encodeOf g0.2.2) hnd
      · rw [if_neg hs]
        exact hnd
    · intro hnd
      apply ND2
      rw [hlabels]
      by_cases hs : g0.1.source = .label
      · rw [if_pos hs]
        by_cases hoz : (g0.1.omitempty && isZero g0.2.2) = true
        · rw [if_pos hoz]
          exact nodupKeys_eraseA meta.labels g0.1.value hnd
        · rw [if_neg hoz]
          exact nodupKeys_setA meta.labels g0.1.value (encodeOf g0.2.2) hnd
      · rw [if_neg hs]
        exact hnd

/-- The traversal output for a modelled record: field `i`'s `fieldInfo`
carries the slot index `i` and the field's tag. -/
def decInfosFrom : Nat → List (ParsedTag × Ty × Val) → List FieldInfo
  | _, [] => []
  | i, g :: rest => ⟨i, g.1⟩ :: decInfosFrom (i + 1) rest

def decInfos (flds : List (ParsedTag × Ty × Val)) : List FieldInfo :=
  decInfosFrom 0 flds

/-- The record with every slot at its zero value (`Decode`'s fresh target). -/
def zeroRec (flds : List (ParsedTag × Ty × Val)) : Record := fun i =>
  match flds.get? i with
  | some g => (g.2.1, zeroVal g.2.1)
  | none => (.tstr, .vstr [])

/-- The record holding the original (encoded) values. -/
def origRec (flds : List (ParsedTag × Ty × Val)) : Record := fun i =>
  match flds.get? i with
  | some g => (g.2.1, g.2.2)
  | none => (.tstr, .vstr [])

theorem mem_decInfosFrom (flds : List (ParsedTag × Ty × Val)) :
    ∀ (b : Nat) (e : FieldInfo), e ∈ decInfosFrom b flds ↔
      ∃ j g, flds.get? j = some g ∧ e = ⟨b + j, g.1⟩ := by
  induction flds with
  | nil =>
    intro b e
    simp [decInfosFrom]
  | cons g0 rest ih =>
    intro b e
    rw [decInfosFrom, List.mem_cons]
    constructor
    · rintro (rfl | hmem)
      · exact ⟨0, g0, rfl, by simp⟩
      · obtain ⟨j, g, hg, he⟩ := (ih (b + 1) e).mp hmem
        refine ⟨j + 1, g, by simpa using hg, ?_⟩
        rw [he]
        have : b + 1 + j = b + (j + 1) := by omega
        rw [this]
    · rintro ⟨j, g, hg, rfl⟩
      cases j with
      | zero =>
        left
        rw [List.get?_cons_zero] at hg
        injection hg with hg0
        rw [hg0]
        simp
      | succ j' =>
        right
        apply (ih (b + 1) _).mpr
        refine ⟨j', g, by simpa using hg, ?_⟩
        have : b + (j' + 1) = b + 1 + j' := by omega
        rw [this]

theorem mem_decInfos (flds : List (ParsedTag × Ty × Val)) (e : FieldInfo) :
    e ∈ decInfos flds ↔ ∃ j g, flds.get? j = some g ∧ e = ⟨j, g.1⟩ := by
  rw [decInfos, mem_decInfosFrom]
  constructor
  · rintro ⟨j, g, hg, rfl⟩
    exact ⟨j, g, hg, by simp⟩
  · rintro ⟨j, g, hg, rfl⟩
    exact ⟨j, g, hg, by simp⟩

theorem addField_name (c : Cache) (x : FieldInfo) (hs : x.tag.source = .name) :
    addField c x = {c with NameFastAccess := c.NameFastAccess ++ [x]} := by
  rw [addField, hs]

theorem addField_nspace (c : Cache) (x : FieldInfo) (hs : x.tag.source = .nspace) :
    addField c x = {c with NamespaceFastAccess := c.NamespaceFastAccess ++ [x]} := by
  rw [addField, hs]

theorem addField_annot (c : Cache) (x : FieldInfo) (hs : x.tag.source = .annot) :
    addField c x = {c with AnnotationFastAccess := setA c.AnnotationFastAccess x.tag.value (lookupFA c.AnnotationFastAccess x.tag.value ++ [x])} := by
  rw [addField, hs]
  rfl

theorem addField_label (c : Cache) (x : FieldInfo) (hs : x.tag.source = .label) :
    addField c x = {c with LabelsFastAccess := setA c.LabelsFastAccess x.tag.value (lookupFA c.LabelsFastAccess x.tag.value ++ [x])} := by
  rw [addField, hs]
  rfl

theorem addField_undef (c : Cache) (x : FieldInfo) (hs : x.tag.source = .undef) :
    addField c x =
      (if x.tag.enc = .custom
       then {c with CustomFieldsFastAccess := c.CustomFieldsFastAccess ++ [x]}
       else c) := by
  rw [addField, hs]

/-- `cache.build`'s fold, characterised bucket by bucket: each bucket (or
fast-access key) collects exactly the fields the `switch` sends there, in
traversal order. -/
theorem foldl_addField_spec (fs : List FieldInfo) :
    ∀ (c : Cache),
      (fs.foldl addField c).NameFastAccess
        = c.NameFastAccess ++ fs.filter (fun e => e.tag.source = .name) ∧
      (fs.foldl addField c).NamespaceFastAccess
        = c.NamespaceFastAccess ++ fs.filter (fun e => e.tag.source = .nspace) ∧
      (∀ k, lookupFA (fs.foldl addField c).AnnotationFastAccess k
        = lookupFA c.AnnotationFastAccess k
          ++ fs.filter (fun e => e.tag.source = .annot ∧ e.tag.value = k)) ∧
      (∀ k, lookupFA (fs.foldl addField c).LabelsFastAccess k
        = lookupFA c.LabelsFastAccess k
          ++ fs.filter (fun e => e.tag.source = .label ∧ e.tag.value = k)) ∧
      (fs.foldl addField c).CustomFieldsFastAccess
        = c.CustomFieldsFastAccess
          ++ fs.filter (fun e => e.tag.source = .undef ∧ e.tag.enc = .custom) := by
  induction fs with
  | nil =>
    intro c
    refine ⟨by simp, by simp, fun k => by simp, fun k => by simp, by simp⟩
  | cons x rest ih =>
    intro c
    rw [List.foldl_cons]
    obtain ⟨ihN, ihS, ihA, ihL, ihC⟩ := ih (addField c x)
    cases hs : x.tag.source with
    | name =>
      rw [addField_name c x hs] at ihN ihS ihA ihL ihC
      rw [addField_name c x hs]
      refine ⟨?_, ?_, ?_, ?_, ?_⟩
      · rw [ihN]
        simp [List.filter_cons, hs]
      · rw [ihS]
        simp [List.filter_cons, hs]
      · intro k
        rw [ihA k]
        simp [List.filter_cons, hs]
      · intro k
        rw [ihL k]
        simp [List.filter_cons, hs]
      · rw [ihC]
        simp [List.filter_cons, hs]
    | nspace =>
      rw [addField_nspace c x hs] at ihN ihS ihA ihL ihC
      rw [addField_nspace c x hs]
      refine ⟨?_, ?_, ?_, ?_, ?_⟩
      · rw [ihN]
        simp [List.filter_cons, hs]
      · rw [ihS]
        simp [List.filter_cons, hs]
      · intro k
        rw [ihA k]
        simp [List.filter_cons, hs]
      · intro k
        rw [ihL k]
        simp [List.filter_cons, hs]
      · rw [ihC]
        simp [List.filter_cons, hs]
    | annot =>
      rw [addField_annot c x hs] at ihN ihS ihA ihL ihC
      rw [addField_annot c x hs]
      refine ⟨?_, ?_, ?_, ?_, ?_⟩
      · rw [ihN]
        simp [List.filter_cons, hs]
      · rw [ihS]
        simp [List.filter_cons, hs]
      · intro k
        rw [ihA k]
        by_cases hk : x.tag.value = k
        · subst hk
          rw [show lookupFA (setA c.AnnotationFastAccess x.tag.value (lookupFA c.AnnotationFastAccess x.tag.value ++ [x])) x.tag.value = lookupFA c.AnnotationFastAccess x.tag.value ++ [x] from by rw [lookupFA, lookupA_setA]; rfl]
          simp [List.filter_cons, hs]
        · rw [show lookupFA (setA c.AnnotationFastAccess x.tag.value (lookupFA c.AnnotationFastAccess x.tag.value ++ [x])) k = lookupFA c.AnnotationFastAccess k from by rw [lookupFA, lookupA_setA_ne _ _ _ _ hk]; rfl]
          simp [List.filter_cons, hs, hk]
      · intro k
        rw [ihL k]
        simp [List.filter_cons, hs]
      · rw [ihC]
        simp [List.filter_cons, hs]
    | label =>
      rw [addField_label c x hs] at ihN ihS ihA ihL ihC
      rw [addField_label c x hs]
      refine ⟨?_, ?_, ?_, ?_, ?_⟩
      · rw [ihN]
        simp [List.filter_cons, hs]
      · rw [ihS]
        simp [List.filter_cons, hs]
      · intro k
        rw [ihA k]
        simp [List.filter_cons, hs]
      · intro k
        rw [ihL k]
        by_cases hk : x.tag.value = k
        · subst hk
          rw [show lookupFA (setA c.LabelsFastAccess x.tag.value (lookupFA c.LabelsFastAccess x.tag.value ++ [x])) x.tag.value = lookupFA c.LabelsFastAccess x.tag.value ++ [x] from by rw [lookupFA, lookupA_setA]; rfl]
          simp [List.filter_cons, hs]
        · rw [show lookupFA (setA c.LabelsFastAccess x.tag.value (lookupFA c.LabelsFastAccess x.tag.value ++ [x])) k = lookupFA c.LabelsFastAccess k from by rw [lookupFA, lookupA_setA_ne _ _ _ _ hk]; rfl]
          simp [List.filter_cons, hs, hk]
      · rw [ihC]
        simp [List.filter_cons, hs]
    | undef =>
      rw [addField_undef c x hs] at ihN ihS ihA ihL ihC
      rw [addField_undef c x hs]
      by_cases he : x.tag.enc = .custom
      · rw [if_pos he] at ihN ihS ihA ihL ihC
        rw [if_pos he]
        refine ⟨?_, ?_, ?_, ?_, ?_⟩
        · rw [ihN]
          simp [List.filter_cons, hs]
        · rw [ihS]
          simp [List.filter_cons, hs]
        · intro k
          rw [ihA k]
          simp [List.filter_cons, hs]
        · intro k
          rw [ihL k]
          simp [List.filter_cons, hs]
        · rw [ihC]
          simp [List.filter_cons, hs, he]
      · rw [if_neg he] at ihN ihS ihA ihL ihC
        rw [if_neg he]
        refine ⟨?_, ?_, ?_, ?_, ?_⟩
        · rw [ihN]
          simp [List.filter_cons, hs]
        · rw [ihS]
          simp [List.filter_cons, hs]
        · intro k
          rw [ihA k]
          simp [List.filter_cons, hs]
        · intro k
          rw [ihL k]
          simp [List.filter_cons, hs]
        · rw [ihC]
          simp [List.filter_cons, hs, he]

theorem buildCache_nameFA (fs : List FieldInfo) :
    (buildCache fs).NameFastAccess = fs.filter (fun e => e.tag.source = .name) := by
  have h := (foldl_addField_spec fs {}).1
  simpa [buildCache] using h

theorem buildCache_nspaceFA (fs : List FieldInfo) :
    (buildCache fs).NamespaceFastAccess = fs.filter (fun e => e.tag.source = .nspace) := by
  have h := (foldl_addField_spec fs {}).2.1
  simpa [buildCache] using h

theorem buildCache_annotFA (fs : List FieldInfo) (k : Str) :
    lookupFA (buildCache fs).AnnotationFastAccess k
      = fs.filter (fun e => e.tag.source = .annot ∧ e.tag.value = k) := by
  have h := (foldl_addField_spec fs {}).2.2.1 k
  simpa [buildCache, lookupFA, lookupA] using h

theorem buildCache_labelFA (fs : List FieldInfo) (k : Str) :
    lookupFA (buildCache fs).LabelsFastAccess k
      = fs.filter (fun e => e.tag.source = .label ∧ e.tag.value = k) := by
  have h := (foldl_addField_spec fs {}).2.2.2.1 k
  simpa [buildCache, lookupFA, lookupA] using h

theorem buildCache_customFA (fs : List FieldInfo) :
    (buildCache fs).CustomFieldsFastAccess
      = fs.filter (fun e => e.tag.source = .undef ∧ e.tag.enc = .custom) := by
  have h := (foldl_addField_spec fs {}).2.2.2.2
  simpa [buildCache] using h

/-- The decode workload in fail-fast mode with no filter: if every visited
entry's field decodes to its target value — both from the zero state and
from the already-decoded state — then the run succeeds, visited slots hold
their targets and unvisited slots are untouched. -/
theorem decodeSteps_stable (meta : Meta) (tgt : Nat → Ty × Val) :
    ∀ (E : List FieldInfo) (rec : Record) (errs : List FieldErr),
      (∀ j, rec j = tgt j ∨ rec j = ((tgt j).1, zeroVal (tgt j).1)) →
      (∀ e ∈ E,
        decodeField meta e.tag (tgt e.path).1 (zeroVal (tgt e.path).1) = .ok (tgt e.path).2 ∧
        decodeField meta e.tag (tgt e.path).1 (tgt e.path).2 = .ok (tgt e.path).2) →
      ∃ rec2, decodeSteps false none meta E rec errs = (rec2, errs, none) ∧
        (∀ j, rec2 j = tgt j ∨ rec2 j = ((tgt j).1, zeroVal (tgt j).1)) ∧
        (∀ e ∈ E, rec2 e.path = tgt e.path) ∧
        (∀ j, (∀ e ∈ E, e.path ≠ j) → rec2 j = rec j) := by
  intro E
  induction E with
  | nil =>
    intro rec errs hinv _
    exact ⟨rec, rfl, hinv, by simp, fun j _ => rfl⟩
  | cons e E2 ihE =>
    intro rec errs hinv hdec
    have hde := hdec e (List.mem_cons_self _ _)
    have h1 : (rec e.path).1 = (tgt e.path).1 := by
      rcases hinv e.path with h | h <;> rw [h]
    have hcur : decodeField meta e.tag (rec e.path).1 (rec e.path).2 = .ok (tgt e.path).2 := by
      rcases hinv e.path with h | h <;> rw [h]
      · exact hde.2
      · exact hde.1
    have hrec1 : updateRec rec e.path (tgt e.path).2 e.path = tgt e.path := by
      simp [updateRec, h1]
    have hinv1 : ∀ j, updateRec rec e.path (tgt e.path).2 j = tgt j ∨
        updateRec rec e.path (tgt e.path).2 j = ((tgt j).1, zeroVal (tgt j).1) := by
      intro j
      by_cases hj : j = e.path
      · subst hj
        exact Or.inl hrec1
      · rw [show updateRec rec e.path (tgt e.path).2 j = rec j from by simp [updateRec, hj]]
        exact hinv j
    obtain ⟨rec2, hrun, hinv2, hall, hun⟩ :=
      ihE (updateRec rec e.path (tgt e.path).2) errs hinv1
        (fun e2 h => hdec e2 (List.mem_cons_of_mem _ h))
    refine ⟨rec2, ?_, hinv2, ?_, ?_⟩
    · rw [decodeSteps, if_pos (show applyFilter none e = true from rfl), hcur]
      exact hrun
    · intro e2 hm
      rcases List.mem_cons.mp hm with heq | hm2
      · subst heq
        by_cases hvis : ∀ e3 ∈ E2, e3.path ≠ e2.path
        · rw [hun e2.path hvis]
          exact hrec1
        · push_neg at hvis
          obtain ⟨e3, he3, hp⟩ := hvis
          rw [← hp]
          exact hall e3 he3
      · exact hall e2 hm2
    · intro j hnone
      rw [hun j (fun e2 h => hnone e2 (List.mem_cons_of_mem _ h))]
      have hj : ¬(j = e.path) := fun h => hnone e (List.mem_cons_self _ _) h.symm
      simp [updateRec, hj]

theorem decodeField_name (meta : Meta) (tag : ParsedTag) (t : Ty) (cur : Val)
    (hdir : tag.dir = .inoutDir) (hinl : tag.inline = false) (hs : tag.source = .name) :
    decodeField meta tag t cur = decodePrimitive t cur meta.name := by
  rw [decodeField, if_neg (by rw [hdir]; simp), if_neg (by rw [hinl]; simp), hs]

theorem decodeField_nspace (meta : Meta) (tag : ParsedTag) (t : Ty) (cur : Val)
    (hdir : tag.dir = .inoutDir) (hinl : tag.inline = false) (hs : tag.source = .nspace) :
    decodeField meta tag t cur = decodePrimitive t cur meta.nspace := by
  rw [decodeField, if_neg (by rw [hdir]; simp), if_neg (by rw [hinl]; simp), hs]

theorem decodeField_annot (meta : Meta) (tag : ParsedTag) (t : Ty) (cur : Val)
    (hdir : tag.dir = .inoutDir) (hinl : tag.inline = false) (hs : tag.source = .annot) :
    decodeField meta tag t cur
      = decodeWithEncoder t cur (matchTag meta.annotations tag) tag.enc := by
  rw [decodeField, if_neg (by rw [hdir]; simp), if_neg (by rw [hinl]; simp), hs]

theorem decodeField_label (meta : Meta) (tag : ParsedTag) (t : Ty) (cur : Val)
    (hdir : tag.dir = .inoutDir) (hinl : tag.inline = false) (hs : tag.source = .label) :
    decodeField meta tag t cur
      = decodeWithEncoder t cur (matchTag meta.labels tag) tag.enc := by
  rw [decodeField, if_neg (by rw [hdir]; simp), if_neg (by rw [hinl]; simp), hs]

theorem decodeField_roundtrip_name (meta : Meta) (tag : ParsedTag) (t : Ty) (v : Val)
    (hdir : tag.dir = .inoutDir) (hinl : tag.inline = false) (hs : tag.source = .name)
    (hprim : primShape t = true) (hf : faithful t v = true)
    (hm : meta.name = encodeOf v) :
    decodeField meta tag t (zeroVal t) = .ok v ∧ decodeField meta tag t v = .ok v := by
  obtain ⟨_, hdz, hdv⟩ := conv_roundtrip_encodeOf t v hf
  constructor
  · rw [decodeField_name meta tag t (zeroVal t) hdir hinl hs, hm,
      ← decodeUndefined_nonopt t hprim]
    exact hdz
  · rw [decodeField_name meta tag t v hdir hinl hs, hm,
      ← decodeUndefined_nonopt t hprim]
    exact hdv

theorem decodeField_roundtrip_nspace (meta : Meta) (tag : ParsedTag) (t : Ty) (v : Val)
    (hdir : tag.dir = .inoutDir) (hinl : tag.inline = false) (hs : tag.source = .nspace)
    (hprim : primShape t = true) (hf : faithful t v = true)
    (hm : meta.nspace = encodeOf v) :
    decodeField meta tag t (zeroVal t) = .ok v ∧ decodeField meta tag t v = .ok v := by
  obtain ⟨_, hdz, hdv⟩ := conv_roundtrip_encodeOf t v hf
  constructor
  · rw [decodeField_nspace meta tag t (zeroVal t) hdir hinl hs, hm,
      ← decodeUndefined_nonopt t hprim]
    exact hdz
  · rw [decodeField_nspace meta tag t v hdir hinl hs, hm,
      ← decodeUndefined_nonopt t hprim]
    exact hdv

theorem decodeField_roundtrip_annot (meta : Meta) (tag : ParsedTag) (t : Ty) (v : Val)
    (hdir : tag.dir = .inoutDir) (hinl : tag.inline = false) (hs : tag.source = .annot)
    (henc : tag.enc = .undef) (hf : faithful t v = true)
    (hm : lookupA meta.annotations tag.value = some (encodeOf v)) :
    decodeField meta tag t (zeroVal t) = .ok v ∧ decodeField meta tag t v = .ok v := by
  have hmt : matchTag meta.annotations tag = encodeOf v := by rw [matchTag, hm]
  obtain ⟨_, hdz, hdv⟩ := conv_roundtrip_encodeOf t v hf
  constructor
  · rw [decodeField_annot meta tag t (zeroVal t) hdir hinl hs, hmt, henc]
    exact hdz
  · rw [decodeField_annot meta tag t v hdir hinl hs, hmt, henc]
    exact hdv

theorem decodeField_roundtrip_label (meta : Meta) (tag : ParsedTag) (t : Ty) (v : Val)
    (hdir : tag.dir = .inoutDir) (hinl : tag.inline = false) (hs : tag.source = .label)
    (henc : tag.enc = .undef) (hf : faithful t v = true)
    (hm : lookupA meta.labels tag.value = some (encodeOf v)) :
    decodeField meta tag t (zeroVal t) = .ok v ∧ decodeField meta tag t v = .ok v := by
  have hmt : matchTag meta.labels tag = encodeOf v := by rw [matchTag, hm]
  obtain ⟨_, hdz, hdv⟩ := conv_roundtrip_encodeOf t v hf
  constructor
  · rw [decodeField_label meta tag t (zeroVal t) hdir hinl hs, hmt, henc]
    exact hdz
  · rw [decodeField_label meta tag t v hdir hinl hs, hmt, henc]
    exact hdv

/-- `Decode` with the default options is exactly the fail-fast decode
workload over the visit order. -/
theorem Decode_default (fields : List FieldInfo) (meta : Meta) (rec : Record) :
    Decode fields meta rec {}
      = (match decodeSteps false none meta
            (visitOrder (buildCache fields) meta) rec [] with
         | (r, es, ab) => (r, finishIterate es ab)) := rfl


/-- Every entry of `iterate`'s visit order is one of the record's fields,
reached through the bucket its source selects (with, for annotation/label
entries, a container key equal to the tag's primary key). -/
theorem visit_entry_decomp (flds : List (ParsedTag × Ty × Val)) (m2 : Meta)
    (e : FieldInfo) (he : e ∈ visitOrder (buildCache (decInfos flds)) m2) :
    ∃ j g, flds.get? j = some g ∧ e = ⟨j, g.1⟩ ∧
      (g.1.source = .name ∨ g.1.source = .nspace ∨
       (g.1.source = .annot ∧ ∃ kv ∈ m2.annotations, g.1.value = kv.1) ∨
       (g.1.source = .label ∧ ∃ kv ∈ m2.labels, g.1.value = kv.1) ∨
       (g.1.source = .undef ∧ g.1.enc = .custom)) := by
  rw [visitOrder] at he
  rcases List.mem_append.mp he with h | h
  · rcases List.mem_append.mp h with h | h
    · rcases List.mem_append.mp h with h | h
      · rcases List.mem_append.mp h with h | h
        · rw [buildCache_nameFA] at h
          obtain ⟨hmem, hp⟩ := List.mem_filter.mp h
          obtain ⟨j, g, hg, heq⟩ := (mem_decInfos flds e).mp hmem
          have htag : e.tag = g.1 := by rw [heq]
          rw [htag] at hp
          exact ⟨j, g, hg, heq, Or.inl (by simpa using hp)⟩
        · rw [buildCache_nspaceFA] at h
          obtain ⟨hmem, hp⟩ := List.mem_filter.mp h
          obtain ⟨j, g, hg, heq⟩ := (mem_decInfos flds e).mp hmem
          have htag : e.tag = g.1 := by rw [heq]
          rw [htag] at hp
          exact ⟨j, g, hg, heq, Or.inr (Or.inl (by simpa using hp))⟩
      · obtain ⟨kv, hkv, hin⟩ := List.mem_flatMap.mp h
        rw [buildCache_annotFA] at hin
        obtain ⟨hmem, hp⟩ := List.mem_filter.mp hin
        obtain ⟨j, g, hg, heq⟩ := (mem_decInfos flds e).mp hmem
        have htag : e.tag = g.1 := by rw [heq]
        rw [htag] at hp
        have hp' : g.1.source = .annot ∧ g.1.value = kv.1 := by simpa using hp
        exact ⟨j, g, hg, heq, Or.inr (Or.inr (Or.inl ⟨hp'.1, kv, hkv, hp'.2⟩))⟩
    · obtain ⟨kv, hkv, hin⟩ := List.mem_flatMap.mp h
      rw [buildCache_labelFA] at hin
      obtain ⟨hmem, hp⟩ := List.mem_filter.mp hin
      obtain ⟨j, g, hg, heq⟩ := (mem_decInfos flds e).mp hmem
      have htag : e.tag = g.1 := by rw [heq]
      rw [htag] at hp
      have hp' : g.1.source = .label ∧ g.1.value = kv.1 := by simpa using hp
      exact ⟨j, g, hg, heq, Or.inr (Or.inr (Or.inr (Or.inl ⟨hp'.1, kv, hkv, hp'.2⟩)))⟩
  · rw [buildCache_customFA] at h
    obtain ⟨hmem, hp⟩ := List.mem_filter.mp h
    obtain ⟨j, g, hg, heq⟩ := (mem_decInfos flds e).mp hmem
    have htag : e.tag = g.1 := by rw [heq]
    rw [htag] at hp
    exact ⟨j, g, hg, heq, Or.inr (Or.inr (Or.inr (Or.inr (by simpa using hp))))⟩

/-- C1: for every record whose tagged fields are all direction `inout`,
use no lossy encodings (the default shape-dispatch encoding on faithful
values of the supported scalar/composite shapes, with pairwise-distinct
metadata targets), `Encoder.Encode` into an empty metadata container
followed by `Decoder.Decode` into a fresh zero record reproduces every
tagged field's value exactly. -/
theorem metaser_roundtrip (flds : List (ParsedTag × Ty × Val))
    (hgood : ∀ g ∈ flds, goodField g)
    (hdist : List.Pairwise (fun a b => distinctTargets a.1 b.1) flds) :
    ∃ m2, Encode (flds.map toSF) {} = .ok m2 ∧
      ∃ rec2, Decode (decInfos flds) m2 (zeroRec flds) {} = (rec2, none) ∧
        ∀ i, i < flds.length → rec2 i = origRec flds i := by
  have hgood' : ∀ g ∈ flds.reverse, goodField g :=
    fun g h => hgood g (List.mem_reverse.mp h)
  have hdist' : List.Pairwise (fun a b => distinctTargets a.1 b.1) flds.reverse := by
    rw [List.pairwise_reverse]
    exact hdist.imp (fun h => distinctTargets_symm _ _ h)
  obtain ⟨m2, hloop, A1, A2, A0, L1, L2, L0, N1, N0, S1, S0, ND1, ND2⟩ :=
    encodeLoop_spec flds.reverse {} hgood' hdist'
  have hEnc : Encode (flds.map toSF) {} = .ok m2 := by
    rw [Encode]
    rw [show (flds.map toSF).reverse = flds.reverse.map toSF from by
      rw [List.map_reverse]]
    exact hloop
  have hA1 : ∀ g ∈ flds, g.1.source = .annot →
      (g.1.omitempty && isZero g.2.2) = false →
      lookupA m2.annotations g.1.value = some (encodeOf g.2.2) :=
    fun g h => A1 g (List.mem_reverse.mpr h)
  have hA2 : ∀ g ∈ flds, g.1.source = .annot →
      (g.1.omitempty && isZero g.2.2) = true →
      lookupA m2.annotations g.1.value = none :=
    fun g h => A2 g (List.mem_reverse.mpr h)
  have hL1 : ∀ g ∈ flds, g.1.source = .label →
      (g.1.omitempty && isZero g.2.2) = false →
      lookupA m2.labels g.1.value = some (encodeOf g.2.2) :=
    fun g h => L1 g (List.mem_reverse.mpr h)
  have hL2 : ∀ g ∈ flds, g.1.source = .label →
      (g.1.omitempty && isZero g.2.2) = true →
      lookupA m2.labels g.1.value = none :=
    fun g h => L2 g (List.mem_reverse.mpr h)
  have hN1 : ∀ g ∈ flds, g.1.source = .name → m2.name = encodeOf g.2.2 :=
    fun g h => N1 g (List.mem_reverse.mpr h)
  have hS1 : ∀ g ∈ flds, g.1.source = .nspace → m2.nspace = encodeOf g.2.2 :=
    fun g h => S1 g (List.mem_reverse.mpr h)
  have hndA : nodupKeys m2.annotations = true := ND1 rfl
  have hndL : nodupKeys m2.labels = true := ND2 rfl
  refine ⟨m2, hEnc, ?_⟩
  have hdecfacts : ∀ e ∈ visitOrder (buildCache (decInfos flds)) m2,
      decodeField m2 e.tag (origRec flds e.path).1 (zeroVal (origRec flds e.path).1)
        = .ok (origRec flds e.path).2 ∧
      decodeField m2 e.tag (origRec flds e.path).1 (origRec flds e.path).2
        = .ok (origRec flds e.path).2 := by
    intro e he
    obtain ⟨j, g, hg, heq, hcase⟩ := visit_entry_decomp flds m2 e he
    have hpath : e.path = j := by rw [heq]
    have htag : e.tag = g.1 := by rw [heq]
    have horig : origRec flds j = (g.2.1, g.2.2) := by
      simp only [origRec]
      rw [hg]
    rw [hpath, htag, horig]
    have hgf : g ∈ flds := List.mem_iff_get?.mpr ⟨j, hg⟩
    obtain ⟨⟨hdir, hinl, henc, hsrc, homit⟩, hfa, hprim⟩ := hgood g hgf
    rcases hcase with hp | hp | hp | hp | hp
    · exact decodeField_roundtrip_name m2 g.1 g.2.1 g.2.2 hdir hinl hp
        (hprim (Or.inl hp)) hfa (hN1 g hgf hp)
    · exact decodeField_roundtrip_nspace m2 g.1 g.2.1 g.2.2 hdir hinl hp
        (hprim (Or.inr hp)) hfa (hS1 g hgf hp)
    · obtain ⟨hs, kv, hkv, hveq⟩ := hp
      have hkvlook : lookupA m2.annotations kv.1 = some kv.2 :=
        nodupKeys_lookupA_of_mem m2.annotations kv.1 kv.2 hndA (by simpa using hkv)
      have hoz : (g.1.omitempty && isZero g.2.2) = false := by
        cases hoz0 : (g.1.omitempty && isZero g.2.2) with
        | false => rfl
        | true =>
          have hnone := hA2 g hgf hs hoz0
          rw [hveq] at hnone
          rw [hnone] at hkvlook
          simp at hkvlook
      exact decodeField_roundtrip_annot m2 g.1 g.2.1 g.2.2 hdir hinl hs henc hfa
        (hA1 g hgf hs hoz)
    · obtain ⟨hs, kv, hkv, hveq⟩ := hp
      have hkvlook : lookupA m2.labels kv.1 = some kv.2 :=
        nodupKeys_lookupA_of_mem m2.labels kv.1 kv.2 hndL (by simpa using hkv)
      have hoz : (g.1.omitempty && isZero g.2.2) = false := by
        cases hoz0 : (g.1.omitempty && isZero g.2.2) with
        | false => rfl
        | true =>
          have hnone := hL2 g hgf hs hoz0
          rw [hveq] at hnone
          rw [hnone] at hkvlook
          simp at hkvlook
      exact decodeField_roundtrip_label m2 g.1 g.2.1 g.2.2 hdir hinl hs henc hfa
        (hL1 g hgf hs hoz)
    · obtain ⟨hs, _⟩ := hp
      rcases hsrc with h | h | h | h <;> (rw [hs] at h; simp at h)
  have hinv0 : ∀ j, zeroRec flds j = origRec flds j ∨
      zeroRec flds j = ((origRec flds j).1, zeroVal (origRec flds j).1) := by
    intro j
    right
    simp only [zeroRec, origRec]
    cases h : flds.get? j with
    | none => rfl
    | some g => rfl
  obtain ⟨rec2, hrun, hinv2, hall, hun⟩ :=
    decodeSteps_stable m2 (origRec flds)
      (visitOrder (buildCache (decInfos flds)) m2) (zeroRec flds) [] hinv0 hdecfacts
  refine ⟨rec2, ?_, ?_⟩
  · rw [Decode_default, hrun]
    rfl
  · intro i hi
    obtain ⟨g, hg⟩ : ∃ g, flds.get? i = some g :=
      ⟨flds.get ⟨i, hi⟩, List.get?_eq_get hi⟩
    have hgf : g ∈ flds := List.mem_iff_get?.mpr ⟨i, hg⟩
    obtain ⟨⟨hdir, hinl, henc, hsrc, homit⟩, hfa, hprim⟩ := hgood g hgf
    have hmemdec : (⟨i, g.1⟩ : FieldInfo) ∈ decInfos flds :=
      (mem_decInfos flds _).mpr ⟨i, g, hg, rfl⟩
    have hget : ∀ (g2 : ParsedTag × Ty × Val), flds.get? i = some g2 → g2 = g := by
      intro g2 h2
      rw [hg] at h2
      exact (Option.some.inj h2).symm
    rcases hsrc with hs | hs | hs | hs
    · by_cases hoz : (g.1.omitempty && isZero g.2.2) = true
      · have hnov : ∀ e ∈ visitOrder (buildCache (decInfos flds)) m2, e.path ≠ i := by
          intro e he hpe
          obtain ⟨j, g2, hg2, heq, hcase⟩ := visit_entry_decomp flds m2 e he
          have hpath : e.path = j := by rw [heq]
          rw [hpath] at hpe
          subst hpe
          rw [hget g2 hg2] at hcase
          rcases hcase with h | h | h | h | h
          · rw [hs] at h
            simp at h
          · rw [hs] at h
            simp at h
          · obtain ⟨_, kv, hkv, hveq⟩ := h
            have hkvlook : lookupA m2.annotations kv.1 = some kv.2 :=
              nodupKeys_lookupA_of_mem m2.annotations kv.1 kv.2 hndA
                (by simpa using hkv)
            have hnone := hA2 g hgf hs hoz
            rw [hveq] at hnone
            rw [hnone] at hkvlook
            simp at hkvlook
          · rw [hs] at h
            simp at h
          · rw [hs] at h
            simp at h
        rw [hun i hnov]
        have hz : isZero g.2.2 = true := by
          rw [Bool.and_eq_true] at hoz
          exact hoz.2
        have hveq : g.2.2 = zeroVal g.2.1 := faithful_zero_eq g.2.1 g.2.2 hfa hz
        simp only [zeroRec, origRec]
        rw [hg]
        show (g.2.1, zeroVal g.2.1) = (g.2.1, g.2.2)
        rw [hveq]
      · have hoz' : (g.1.omitempty && isZero g.2.2) = false := by
          cases h2 : (g.1.omitempty && isZero g.2.2) with
          | true => exact absurd h2 hoz
          | false => rfl
        have hkv : (g.1.value, encodeOf g.2.2) ∈ m2.annotations :=
          lookupA_mem _ _ _ (hA1 g hgf hs hoz')
        have hmemE : (⟨i, g.1⟩ : FieldInfo)
            ∈ visitOrder (buildCache (decInfos flds)) m2 := by
          rw [visitOrder]
          refine List.mem_append_left _ (List.mem_append_left _
            (List.mem_append_right _ ?_))
          refine List.mem_flatMap.mpr ⟨(g.1.value, encodeOf g.2.2), hkv, ?_⟩
          rw [buildCache_annotFA]
          exact List.mem_filter.mpr ⟨hmemdec, by simp [hs]⟩
        exact hall _ hmemE
    · by_cases hoz : (g.1.omitempty && isZero g.2.2) = true
      · have hnov : ∀ e ∈ visitOrder (buildCache (decInfos flds)) m2, e.path ≠ i := by
          intro e he hpe
          obtain ⟨j, g2, hg2, heq, hcase⟩ := visit_entry_decomp flds m2 e he
          have hpath : e.path = j := by rw [heq]
          rw [hpath] at hpe
          subst hpe
          rw [hget g2 hg2] at hcase
          rcases hcase with h | h | h | h | h
          · rw [hs] at h
            simp at h
          · rw [hs] at h
            simp at h
          · rw [hs] at h
            simp at h
          · obtain ⟨_, kv, hkv, hveq⟩ := h
            have hkvlook : lookupA m2.labels kv.1 = some kv.2 :=
              nodupKeys_lookupA_of_mem m2.labels kv.1 kv.2 hndL
                (by simpa using hkv)
            have hnone := hL2 g hgf hs hoz
            rw [hveq] at hnone
            rw [hnone] at hkvlook
            simp at hkvlook
          · rw [hs] at h
            simp at h
        rw [hun i hnov]
        have hz : isZero g.2.2 = true := by
          rw [Bool.and_eq_true] at hoz
          exact hoz.2
        have hveq : g.2.2 = zeroVal g.2.1 := faithful_zero_eq g.2.1 g.2.2 hfa hz
        simp only [zeroRec, origRec]
        rw [hg]
        show (g.2.1, zeroVal g.2.1) = (g.2.1, g.2.2)
        rw [hveq]
      · have hoz' : (g.1.omitempty && isZero g.2.2) = false := by
          cases h2 : (g.1.omitempty && isZero g.2.2) with
          | true => exact absurd h2 hoz
          | false => rfl
        have hkv : (g.1.value, encodeOf g.2.2) ∈ m2.labels :=
          lookupA_mem _ _ _ (hL1 g hgf hs hoz')
        have hmemE : (⟨i, g.1⟩ : FieldInfo)
            ∈ visitOrder (buildCache (decInfos flds)) m2 := by
          rw [visitOrder]
          refine List.mem_append_left _ (List.mem_append_right _ ?_)
          refine List.mem_flatMap.mpr ⟨(g.1.value, encodeOf g.2.2), hkv, ?_⟩
          rw [buildCache_labelFA]
          exact List.mem_filter.mpr ⟨hmemdec, by simp [hs]⟩
        exact hall _ hmemE
    · have hmemE : (⟨i, g.1⟩ : FieldInfo)
          ∈ visitOrder (buildCache (decInfos flds)) m2 := by
        rw [visitOrder]
        refine List.mem_append_left _ (List.mem_append_left _
          (List.mem_append_left _ (List.mem_append_left _ ?_)))
        rw [buildCache_nameFA]
        exact List.mem_filter.mpr ⟨hmemdec, by simp [hs]⟩
      exact hall _ hmemE
    · have hmemE : (⟨i, g.1⟩ : FieldInfo)
          ∈ visitOrder (buildCache (decInfos flds)) m2 := by
        rw [visitOrder]
        refine List.mem_append_left _ (List.mem_append_left _
          (List.mem_append_left _ (List.mem_append_right _ ?_)))
        rw [buildCache_nspaceFA]
        exact List.mem_filter.mpr ⟨hmemdec, by simp [hs]⟩
      exact hall _ hmemE

/-- A concrete two-field record for the round-trip: a name-sourced string
field and an annotation-sourced 8-bit integer field under key `k`. -/
def rtFields : List (ParsedTag × Ty × Val) :=
  [({source := .name}, .tstr, .vstr (str "n")),
   ({source := .annot, value := str "k"}, .tint 8, .vint 5)]

theorem metaser_roundtrip_witness :
    (∀ g ∈ rtFields, goodField g) ∧
    List.Pairwise (fun a b => distinctTargets a.1 b.1) rtFields ∧
    ∃ m2, Encode (rtFields.map toSF) {} = .ok m2 ∧
      ∃ rec2, Decode (decInfos rtFields) m2 (zeroRec rtFields) {} = (rec2, none) ∧
        ∀ i, i < rtFields.length → rec2 i = origRec rtFields i := by
  have h1 : goodField ({source := .name}, .tstr, .vstr (str "n")) :=
    ⟨⟨rfl, rfl, rfl, Or.inr (Or.inr (Or.inl rfl)), fun _ => rfl⟩,
     by rw [faithful.eq_def], fun _ => rfl⟩
  have h2 : goodField ({source := .annot, value := str "k"}, .tint 8, .vint 5) :=
    ⟨⟨rfl, rfl, rfl, Or.inl rfl, fun _ => rfl⟩,
     by rw [faithful.eq_def]; decide, fun _ => rfl⟩
  have hgood : ∀ g ∈ rtFields, goodField g := by
    intro g hg
    simp only [rtFields, List.mem_cons, List.not_mem_nil, or_false] at hg
    rcases hg with rfl | rfl
    · exact h1
    · exact h2
  have hpw : List.Pairwise (fun a b => distinctTargets a.1 b.1) rtFields := by
    rw [rtFields]
    apply List.Pairwise.cons
    · intro b hb
      simp only [List.mem_cons, List.not_mem_nil, or_false] at hb
      subst hb
      exact ⟨by decide, by decide, by decide, by decide⟩
    · apply List.Pairwise.cons
      · intro b hb
        simp at hb
      · exact List.Pairwise.nil
  exact ⟨hgood, hpw, metaser_roundtrip rtFields hgood hpw⟩
